import Mathlib

/-!
Shallow embedding of the bank-statement parsing engine
(`parse_bank_statement.py`) and proofs about its specification claims.

Modelling conventions:
* Python strings are modelled as `String` / `List Char`; `re` patterns are
  translated into explicit character-list matchers that reproduce the
  backtracking order of the concrete patterns used by the source.
* Python floats are modelled exactly, in cents (`ℤ`): every float the
  program manipulates is produced by `float(...)` on a decimal string with
  at most two fractional digits (the regexes guarantee exactly two), so the
  value `c / 100` is represented by the integer `c`.  On these values
  `round(x, 2)` is the identity.
* Python exceptions (`ValueError`) are modelled with `Except Unit`.
* The mutable dictionaries held by `process_statement_lines` are modelled
  with an explicit store (list of records) plus indices, so that aliasing
  between the `rows` list and `current_tx` is represented faithfully.
* `datetime.today().year` is modelled as an explicit `today` parameter.
-/

/-! ### Character and list utilities -/

/-- Whitespace as matched by `\s` / `str.strip()` (ASCII fragment). -/
def isWsChar (c : Char) : Bool :=
  c = ' ' || c = '\t' || c = '\n' || c = '\r' || c = Char.ofNat 11 || c = Char.ofNat 12

/-- Word character for `\b` boundaries: `[A-Za-z0-9_]`. -/
def isWordChar (c : Char) : Bool :=
  c.isAlpha || c.isDigit || c = '_'

/-- `str.strip()` on a character list: drop leading whitespace. -/
def stripLeft (cs : List Char) : List Char := cs.dropWhile isWsChar

/-- `str.strip()` on a character list: drop trailing whitespace. -/
def stripRight (cs : List Char) : List Char := (cs.reverse.dropWhile isWsChar).reverse

/-- `str.strip()` on a character list. -/
def stripChars (cs : List Char) : List Char := stripRight (stripLeft cs)

/-- `str.strip()` on a `String`. -/
def stripStr (s : String) : String := ⟨stripChars s.toList⟩

/-- `str.lower()` (ASCII fragment, as used by the source). -/
def lowerChars (cs : List Char) : List Char := cs.map Char.toLower

/-- Does `needle` occur at the start of `hay`? -/
def litAt : List Char → List Char → Bool
  | [], _ => true
  | _ :: _, [] => false
  | a :: as, b :: bs => a = b && litAt as bs

/-- Python `needle in hay` substring test. -/
def hasSub (hay needle : List Char) : Bool :=
  match hay with
  | [] => litAt needle []
  | _ :: t => litAt needle hay || hasSub t needle

/-- Leftmost position (if any) at which `p` reports a match.
Mirrors `re.search` scanning positions left to right. -/
def scanFirst (p : List Char → Option α) : List Char → Option (Nat × α)
  | [] => (p []).map (fun a => (0, a))
  | cs@(_ :: t) =>
    match p cs with
    | some a => some (0, a)
    | none => (scanFirst p t).map (fun pa => (pa.1 + 1, pa.2))

/-- Count of leading characters satisfying `f`. -/
def countLeading (f : Char → Bool) (cs : List Char) : Nat :=
  (cs.takeWhile f).length

/-- Consume one optional character satisfying `f` (regex `X?`). -/
def takeOpt (f : Char → Bool) (cs : List Char) : Nat × List Char :=
  match cs with
  | c :: t => if f c then (1, t) else (0, cs)
  | [] => (0, [])

/-- All characters are decimal digits and the list is non-empty
(Python `str.isdigit`, ASCII fragment). -/
def allDigits (cs : List Char) : Bool :=
  !cs.isEmpty && cs.all Char.isDigit

/-- Numeric value of a digit list. -/
def digitsVal (cs : List Char) : Nat :=
  cs.foldl (fun acc c => acc * 10 + (c.toNat - 48)) 0

/-- Split a character list at every occurrence of `sep` (Python `str.split(sep)`). -/
def splitOnCh (sep : Char) : List Char → List (List Char)
  | [] => [[]]
  | c :: t =>
    match splitOnCh sep t with
    | h :: r => if c = sep then [] :: h :: r else (c :: h) :: r
    | [] => if c = sep then [[], []] else [[c]]

/-- Decimal representation of a natural number as characters. -/
def natChars (n : Nat) : List Char := (toString n).toList

/-- Python `str(n)[-2:]`. -/
def lastTwoChars (cs : List Char) : List Char := cs.drop (cs.length - 2)

/-! ### The money tokenizer (`MONEY_INLINE`, `MONEY_STRIPPER`, `clean_amount_str`) -/

/-- Maximal run of `[\d,]`, returning (run length, rest). -/
def digCommaRun (cs : List Char) : Nat × List Char :=
  let run := cs.takeWhile (fun c => c.isDigit || c = ',')
  (run.length, cs.drop run.length)

/-- Match of `MONEY_INLINE = (-?\$?\s?\d[\d,]*\.\d{2})` anchored at the head of
`cs`; returns the matched length.  The greedy `[\d,]*` run needs no
backtracking because `.` is not in the class. -/
def moneyAt (cs : List Char) : Option Nat :=
  let (a, r1) := takeOpt (· = '-') cs
  let (b, r2) := takeOpt (· = '$') r1
  let (c, r3) := takeOpt isWsChar r2
  match r3 with
  | d :: r4 =>
    if d.isDigit then
      let (k, r5) := digCommaRun r4
      match r5 with
      | '.' :: e1 :: e2 :: _ =>
        if e1.isDigit && e2.isDigit then some (a + b + c + 1 + k + 3) else none
      | _ => none
    else none
  | [] => none

/-- `MONEY_INLINE.search`: leftmost match as (start, length). -/
def moneySearch (cs : List Char) : Option (Nat × Nat) := scanFirst moneyAt cs

/-- The group-1 token of the leftmost `MONEY_INLINE` match. -/
def moneyToken (cs : List Char) : Option (List Char) :=
  (moneySearch cs).map (fun pl => (cs.drop pl.1).take pl.2)

/-- `MONEY_INLINE.sub('', s)`: delete every (non-overlapping, leftmost-first)
match.  `re.sub` resumes scanning after each match. -/
def moneySubAux : Nat → List Char → List Char
  | 0, cs => cs
  | fuel + 1, cs =>
    match moneySearch cs with
    | none => cs
    | some (p, l) => cs.take p ++ moneySubAux fuel (cs.drop (p + l))

/-- `MONEY_INLINE.sub('', s)`. -/
def moneySub (cs : List Char) : List Char := moneySubAux cs.length cs

/-- `MONEY_STRIPPER.sub("", s)`: keep only `[\d.\-]`. -/
def moneyStrip (cs : List Char) : List Char :=
  cs.filter (fun c => c.isDigit || c = '.' || c = '-')

/-- Python `float` on the strings this program feeds to it (optional sign,
digits, optional dot, digits; at least one digit), returning the value in
cents.  The regexes guarantee at most two fractional digits, so the result
is exact; longer fractions are outside the modelled domain.
`floatCore` handles the string after the optional sign character. -/
def floatCore (neg : Bool) (r : List Char) : Option ℤ :=
  match splitOnCh '.' r with
  | [ip] =>
    if allDigits ip then some ((if neg then -1 else 1) * (digitsVal ip : ℤ) * 100) else none
  | [ip, fp] =>
    if (ip.all Char.isDigit) && (fp.all Char.isDigit) && !(ip.isEmpty && fp.isEmpty) &&
        fp.length ≤ 2 then
      some ((if neg then -1 else 1) *
        ((digitsVal ip : ℤ) * 100 + (digitsVal fp : ℤ) * 10 ^ (2 - fp.length)))
    else none
  | _ => none

/-- See `floatCore`; the sign character is consumed first. -/
def floatParse (cs : List Char) : Option ℤ :=
  match cs with
  | '-' :: t => floatCore true t
  | '+' :: t => floatCore false t
  | _ => floatCore false cs

/-- `clean_amount_str` from the source:
search `MONEY_INLINE`, record whether the token contains `-`, strip every
character outside `[\d.\-]`, convert with `float`, and return
`-amount if negative else amount`.  (Note that `float` already honours a
leading minus, so the final negation cancels it.) -/
def clean_amount_str (s : String) : Except Unit ℤ :=
  match moneyToken s.toList with
  | none => .error ()
  | some token =>
    let negative := token.any (· = '-')
    let cleaned := moneyStrip token
    if cleaned.isEmpty then .error ()
    else
      match floatParse cleaned with
      | none => .error ()
      | some amount => .ok (if negative then -amount else amount)

/-! ### Brand detection and sign resolution -/

/-- `re.sub(r"\s+", " ", text)`: collapse whitespace runs to single spaces
(`prevWs` records whether the previous character was part of a run). -/
def collapseWsAux (prevWs : Bool) : List Char → List Char
  | [] => []
  | c :: t =>
    if isWsChar c then
      if prevWs then collapseWsAux true t else ' ' :: collapseWsAux true t
    else c :: collapseWsAux false t

/-- `re.sub(r"\s+", " ", text)`. -/
def collapseWs (cs : List Char) : List Char := collapseWsAux false cs

/-- `detect_brand_from_text` from the source. -/
def detect_brand_from_text (text : String) : String :=
  let txt := lowerChars (collapseWs text.toList)
  if hasSub txt "wells fargo".toList &&
      (hasSub txt "transaction history".toList ||
       hasSub txt "deposits/ credits".toList ||
       hasSub txt "withdrawals/ debits".toList) then "wells"
  else if hasSub txt "american express".toList ||
      hasSub txt "membership rewards".toList then "amex"
  else "generic"

/-- `NEGATIVE_HINTS` from the source. -/
def NEGATIVE_HINTS : List String :=
  ["purchase authorized", "withdrawal", "ach debit", "zelle to",
   "payment", "check", "debit", "card", "b2p"]

/-- `POSITIVE_HINTS` from the source. -/
def POSITIVE_HINTS : List String :=
  ["le - usa technol", "usa technol",
   "deposit", "edeposit", "atm cash deposit", "credit", "refund", "zelle from"]

/-- Does the lowercased description contain some negative hint? -/
def hasNegHint (d : List Char) : Bool :=
  NEGATIVE_HINTS.any (fun k => hasSub d k.toList)

/-- Does the lowercased description contain some positive hint? -/
def hasPosHint (d : List Char) : Bool :=
  POSITIVE_HINTS.any (fun k => hasSub d k.toList)

/-- `guess_sign` from the source. -/
def guess_sign (desc : String) (amount_has_minus : Bool) (brand : String) : Int :=
  let d := lowerChars desc.toList
  if brand = "amex" && amount_has_minus &&
      (hasSub d "credit".toList || hasSub d "refund".toList) then 1
  else if amount_has_minus then -1
  else if hasNegHint d then -1
  else if hasPosHint d then 1
  else if brand = "wells" then 1 else -1

/-! ### Year inference from the file name (`infer_year_from_filename`) -/

/-- Match of `20\d{2}` at the head of the list, returning the year value. -/
def year20At (cs : List Char) : Option Nat :=
  match cs with
  | '2' :: '0' :: a :: b :: _ =>
    if a.isDigit && b.isDigit then some (2000 + (a.toNat - 48) * 10 + (b.toNat - 48))
    else none
  | _ => none

/-- Match of `\d{6}` at the head of the list, returning the six digits. -/
def sixDigitsAt (cs : List Char) : Option (List Char) :=
  match cs with
  | a :: b :: c :: d :: e :: f :: _ =>
    if a.isDigit && b.isDigit && c.isDigit && d.isDigit && e.isDigit && f.isDigit then
      some [a, b, c, d, e, f]
    else none
  | _ => none

/-- `infer_year_from_filename` from the source: first `20\d{2}` match wins;
otherwise the first `\d{6}` match contributes `2000 + int(m[-2:])`;
otherwise `None` (an empty name is falsy and returns `None` immediately). -/
def infer_year_from_filename (name : String) : Option Nat :=
  if name.isEmpty then none
  else
    match scanFirst year20At name.toList with
    | some (_, y) => some y
    | none =>
      match scanFirst sixDigitsAt name.toList with
      | some (_, ds) => some (2000 + digitsVal (lastTwoChars ds))
      | none => none

/-! ### Date parsing (`datetime.strptime` fragment, `normalize_date`,
`parse_abbreviated_month_date`) -/

/-- Gregorian leap year. -/
def isLeapYear (y : Nat) : Bool :=
  y % 4 = 0 && (y % 100 ≠ 0 || y % 400 = 0)

/-- Days in a month (month assumed in 1..12). -/
def daysInMonth (y m : Nat) : Nat :=
  if m = 2 then (if isLeapYear y then 29 else 28)
  else if m = 4 || m = 6 || m = 9 || m = 11 then 30
  else 31

/-- The `%m` component language of `strptime`: `1[0-2]|0[1-9]|[1-9]`. -/
def monthVal (p : List Char) : Option Nat :=
  match p with
  | [a] => if '1' ≤ a && a ≤ '9' then some (a.toNat - 48) else none
  | [a, b] =>
    if a = '1' && '0' ≤ b && b ≤ '2' then some (10 + (b.toNat - 48))
    else if a = '0' && '1' ≤ b && b ≤ '9' then some (b.toNat - 48)
    else none
  | _ => none

/-- The `%d` component language of `strptime`: `3[01]|[12]\d|0[1-9]|[1-9]`. -/
def dayVal (p : List Char) : Option Nat :=
  match p with
  | [a] => if '1' ≤ a && a ≤ '9' then some (a.toNat - 48) else none
  | [a, b] =>
    if a = '3' && ('0' ≤ b && b ≤ '1') then some (30 + (b.toNat - 48))
    else if (a = '1' || a = '2') && b.isDigit then some ((a.toNat - 48) * 10 + (b.toNat - 48))
    else if a = '0' && '1' ≤ b && b ≤ '9' then some (b.toNat - 48)
    else none
  | _ => none

/-- The `%Y` component: exactly four digits. -/
def yearVal4 (p : List Char) : Option Nat :=
  match p with
  | [a, b, c, d] =>
    if a.isDigit && b.isDigit && c.isDigit && d.isDigit then some (digitsVal p) else none
  | _ => none

/-- The `%y` component: exactly two digits, with CPython's century pivot
(values `0..68` map to `2000..2068`, `69..99` to `1969..1999`). -/
def yearVal2 (p : List Char) : Option Nat :=
  match p with
  | [a, b] =>
    if a.isDigit && b.isDigit then
      let y := digitsVal p
      some (if y ≤ 68 then 2000 + y else 1900 + y)
    else none
  | _ => none

/-- `datetime.strptime(s, "%m/%d/%Y")` (when `fourY`) or `"%m/%d/%y"`:
full-string match plus calendar validation. -/
def strptimeMDY (cs : List Char) (fourY : Bool) : Option (Nat × Nat × Nat) :=
  match splitOnCh '/' cs with
  | [p1, p2, p3] => do
    let m ← monthVal p1
    let d ← dayVal p2
    let y ← if fourY then yearVal4 p3 else yearVal2 p3
    if 1 ≤ y && d ≤ daysInMonth y m then some (m, d, y) else none
  | _ => none

/-- `normalize_date` from the source.  `today` models `datetime.today().year`. -/
def normalize_date (ds : String) (year_hint : Option Nat) (today : Nat) :
    Except Unit (Nat × Nat × Nat) :=
  let cs := stripChars ds.toList
  match strptimeMDY cs true with
  | some r => .ok r
  | none =>
    match strptimeMDY cs false with
    | some r => .ok r
    | none =>
      let yh := year_hint.getD today
      let cs2 := cs ++ '/' :: natChars yh
      match strptimeMDY cs2 true with
      | some r => .ok r
      | none =>
        match strptimeMDY cs2 false with
        | some r => .ok r
        | none => .error ()

/-- `month_map` from `parse_abbreviated_month_date`. -/
def monthMap (mon : String) : Option Nat :=
  if mon = "Jan" then some 1 else if mon = "Feb" then some 2
  else if mon = "Mar" then some 3 else if mon = "Apr" then some 4
  else if mon = "May" then some 5 else if mon = "Jun" then some 6
  else if mon = "Jul" then some 7 else if mon = "Aug" then some 8
  else if mon = "Sep" then some 9 else if mon = "Oct" then some 10
  else if mon = "Nov" then some 11 else if mon = "Dec" then some 12
  else none

/-- `parse_abbreviated_month_date` from the source: resolves the month name,
defaults the year to `today` when no hint exists, and builds
`datetime(year, month, int(day))` (whose constructor validates the calendar). -/
def parse_abbreviated_month_date (mon : String) (dayCs : List Char)
    (year_hint : Option Nat) (today : Nat) : Except Unit (Nat × Nat × Nat) :=
  let y := year_hint.getD today
  match monthMap mon with
  | none => .error ()
  | some m =>
    let d := digitsVal dayCs
    if 1 ≤ d && d ≤ daysInMonth y m && 1 ≤ y && y ≤ 9999 then .ok (m, d, y)
    else .error ()

/-- The `f"{dt.month}/{dt.day}/{dt.year}"` date format (no zero padding). -/
def dateFmt (m d y : Nat) : String :=
  toString m ++ "/" ++ toString d ++ "/" ++ toString y

/-! ### Line-level matchers for `pattern`, `DATE_START`, `ABBREV_MONTH_DATE`,
`AMOUNT_ONLY`, `AMOUNT_WITH_BALANCE`, `HEADER_RE`, `MEMO_CLEAN_RE` -/

/-- Full-string match of the amount tail of `pattern`:
`-?\$?\s?\d[\d,]*\.\d{2}-?$`. -/
def amtFullMatch (v : List Char) : Bool :=
  let (_, r1) := takeOpt (· = '-') v
  let (_, r2) := takeOpt (· = '$') r1
  let (_, r3) := takeOpt isWsChar r2
  match r3 with
  | d :: r4 =>
    d.isDigit &&
      (let (_, r5) := digCommaRun r4
       match r5 with
       | '.' :: a :: b :: t => a.isDigit && b.isDigit && (t.isEmpty || t = ['-'])
       | _ => false)
  | [] => false

/-- The lazy `(.*?)\s+(amount)$` part of `pattern`: scan description end
positions from the left (lazy group), requiring at least one whitespace and
then a full amount match up to the end of the line.  Returns
(description, amount group). -/
def descScanPat (acc : List Char) : List Char → Option (List Char × List Char)
  | [] => none
  | rest@(c :: t) =>
    let k := countLeading isWsChar rest
    if 1 ≤ k && amtFullMatch (rest.drop k) then some (acc, rest.drop k)
    else descScanPat (acc ++ [c]) t

/-- Continuation of `pattern` after the date alternation:
`\*?\s+(.*?)\s+(amount)$`. -/
def patternCont (r : List Char) : Option (List Char × List Char) :=
  let (_, r1) := takeOpt (· = '*') r
  let k := countLeading isWsChar r1
  if k = 0 then none else descScanPat [] (r1.drop k)

/-- The `pattern` regex
`^(?:(\d{2}/\d{2}/\d{2})|(\d{2}/\d{2}))\*?\s+(.*?)\s+(-?\$?\s?\d[\d,]*\.\d{2}-?)$`
used via `.search` (anchored, hence a full-line match).
Returns (group1, group2, description, amount string). -/
def patternMatch (cs : List Char) :
    Option (Option (List Char) × Option (List Char) × List Char × List Char) :=
  let long : Option (Option (List Char) × Option (List Char) × List Char × List Char) :=
    match cs with
    | a :: b :: '/' :: c :: d :: '/' :: e :: f :: rest =>
      if a.isDigit && b.isDigit && c.isDigit && d.isDigit && e.isDigit && f.isDigit then
        (patternCont rest).map
          (fun da => (some [a, b, '/', c, d, '/', e, f], none, da.1, da.2))
      else none
    | _ => none
  match long with
  | some r => some r
  | none =>
    match cs with
    | a :: b :: '/' :: c :: d :: rest =>
      if a.isDigit && b.isDigit && c.isDigit && d.isDigit then
        (patternCont rest).map (fun da => (none, some [a, b, '/', c, d], da.1, da.2))
      else none
    | _ => none

/-- Candidates for `\d{1,2}` in greedy order (two digits first). -/
def takeDigits2or1 (cs : List Char) : List (List Char × List Char) :=
  (match cs with
   | a :: b :: t => if a.isDigit && b.isDigit then [([a, b], t)] else []
   | _ => []) ++
  (match cs with
   | a :: t => if a.isDigit then [([a], t)] else []
   | _ => [])

/-- Candidates for `\d{2,4}` in greedy order (four digits first). -/
def yearCands (cs : List Char) : List (List Char × List Char) :=
  (match cs with
   | a :: b :: c :: d :: t =>
     if a.isDigit && b.isDigit && c.isDigit && d.isDigit then [([a, b, c, d], t)] else []
   | _ => []) ++
  (match cs with
   | a :: b :: c :: t =>
     if a.isDigit && b.isDigit && c.isDigit then [([a, b, c], t)] else []
   | _ => []) ++
  (match cs with
   | a :: b :: t => if a.isDigit && b.isDigit then [([a, b], t)] else []
   | _ => [])

/-- The `DATE_START` regex `^(\d{1,2}/\d{1,2}(?:/\d{2,4})?)\*?\b(.*)$` used via
`.match`, with Python's backtracking order (greedy digit groups, the optional
year group and `*` tried first, then the word boundary).
Returns (date group, rest group). -/
def dateStartMatch (cs : List Char) : Option (List Char × List Char) :=
  (takeDigits2or1 cs).findSome? fun mr =>
    match mr.2 with
    | '/' :: r1 =>
      (takeDigits2or1 r1).findSome? fun dr =>
        let withYear : List (List Char × List Char) :=
          match dr.2 with
          | '/' :: r2 =>
            (yearCands r2).map (fun yr => (mr.1 ++ '/' :: dr.1 ++ '/' :: yr.1, yr.2))
          | _ => []
        let alts := withYear ++ [(mr.1 ++ '/' :: dr.1, dr.2)]
        alts.findSome? fun da =>
          let starAlts : List (Bool × List Char) :=
            (match da.2 with
             | '*' :: r4 => [(true, r4)]
             | _ => []) ++ [(false, da.2)]
          starAlts.findSome? fun sa =>
            let nextWord := match sa.2 with
              | c :: _ => isWordChar c
              | [] => false
            let atEnd := sa.2.isEmpty
            -- previous char is '*' (non-word) when the star was consumed,
            -- otherwise a digit (word)
            let bOk := if sa.1 then nextWord else (atEnd || !nextWord)
            if bOk then some (da.1, sa.2) else none
    | _ => none

/-- Month alternatives of `ABBREV_MONTH_DATE`, in regex order. -/
def abbrevMonths : List String :=
  ["Jan", "Feb", "Mar", "Apr", "May", "Jun", "Jul", "Aug", "Sep", "Oct", "Nov", "Dec"]

/-- The `ABBREV_MONTH_DATE` regex `^(Jan|...|Dec)(\d{2})\b(.*)$` used via
`.match` (case sensitive).  Returns (month name, day digits, rest). -/
def abbrevMatch (cs : List Char) : Option (String × List Char × List Char) :=
  abbrevMonths.findSome? fun mon =>
    if litAt mon.toList cs then
      match cs.drop 3 with
      | a :: b :: t =>
        if a.isDigit && b.isDigit then
          match t with
          | [] => some (mon, [a, b], [])
          | c :: _ => if isWordChar c then none else some (mon, [a, b], t)
        else none
      | _ => none
    else none

/-- `[⧫♦]`. -/
def isDiamond (c : Char) : Bool := c = '⧫' || c = '♦'

/-- The `AMOUNT_ONLY` regex `^\s*-?\$?\s?\d[\d,]*\.\d{2}(?:\s*[⧫♦])?\s*$`
used via `.match` (end-anchored, hence a full-line match). -/
def amountOnlyMatch (cs : List Char) : Bool :=
  let r := cs.dropWhile isWsChar
  match moneyAt r with
  | none => false
  | some l =>
    match (r.drop l).dropWhile isWsChar with
    | [] => true
    | c :: t => isDiamond c && (t.dropWhile isWsChar).isEmpty

/-- The `AMOUNT_WITH_BALANCE` regex
`^\s*(-?\$?\s?\d[\d,]*\.\d{2})\s+[\d,]*\.\d{2}\s*$` used via `.match`.
Returns the span (start, length) of group 1. -/
def amountWithBalanceMatch (cs : List Char) : Option (Nat × Nat) :=
  let w := countLeading isWsChar cs
  let r := cs.drop w
  match moneyAt r with
  | none => none
  | some l =>
    let r2 := r.drop l
    let k := countLeading isWsChar r2
    if k = 0 then none
    else
      let (_, r4) := digCommaRun (r2.drop k)
      match r4 with
      | '.' :: a :: b :: t =>
        if a.isDigit && b.isDigit && (t.dropWhile isWsChar).isEmpty then some (w, l)
        else none
      | _ => none

/-- `new\s+charges?` anchored at the head (only the mandatory part matters
for boolean search and leftmost position). -/
def newChargeAt (cs : List Char) : Bool :=
  litAt "new".toList cs &&
    (let r := cs.drop 3
     let k := countLeading isWsChar r
     1 ≤ k && litAt "charge".toList (r.drop k))

/-- One alternative of `HEADER_RE` anchored at the head of a lowercased list. -/
def headerAt (cs : List Char) : Bool :=
  litAt "detail".toList cs || litAt "summary".toList cs || litAt "payment".toList cs ||
  litAt "closing".toList cs || litAt "account".toList cs || litAt "page".toList cs ||
  newChargeAt cs || litAt "transactions".toList cs || litAt "activity date".toList cs ||
  litAt "postdate".toList cs || litAt "reference".toList cs || litAt "totals".toList cs

/-- `HEADER_RE.search(s)`: position of the leftmost match (case-insensitive). -/
def headerFind (cs : List Char) : Option Nat :=
  (scanFirst (fun t => if headerAt t then some () else none) (lowerChars cs)).map (·.1)

/-- `bool(HEADER_RE.search(s))`. -/
def headerSearch (cs : List Char) : Bool := (headerFind cs).isSome

/-- One alternative of `MEMO_CLEAN_RE` anchored at the head of a lowercased
list: `(summary|detail|closing|account|page|new\s+charges?)`. -/
def memoCleanAt (cs : List Char) : Bool :=
  litAt "summary".toList cs || litAt "detail".toList cs || litAt "closing".toList cs ||
  litAt "account".toList cs || litAt "page".toList cs || newChargeAt cs

/-- `MEMO_CLEAN_RE.search(s)`: position of the leftmost match. -/
def memoCleanFind (cs : List Char) : Option Nat :=
  (scanFirst (fun t => if memoCleanAt t then some () else none) (lowerChars cs)).map (·.1)

/-- The memo truncation idiom of the source:
`if MEMO_CLEAN_RE.search(m): m = MEMO_CLEAN_RE.split(m)[0].strip()`. -/
def memoCleanup (cs : List Char) : List Char :=
  match memoCleanFind cs with
  | some p => stripChars (cs.take p)
  | none => cs

/-- `re.search(r'\btotals\b', line, re.I)` as a boolean, scanning with the
previous character for the left word boundary. -/
def totalsWordAux (prev : Option Char) : List Char → Bool
  | [] => false
  | cs@(c :: t) =>
    (litAt "totals".toList cs &&
      (match prev with
       | none => true
       | some p => !isWordChar p) &&
      (match cs.drop 6 with
       | [] => true
       | d :: _ => !isWordChar d)) ||
    totalsWordAux (some c) t

/-- `re.search(r'\btotals\b', line, re.I)` as a boolean. -/
def totalsWordSearch (cs : List Char) : Bool := totalsWordAux none (lowerChars cs)

/-- `^\d+\s+\d{1,2}/\d{1,2}` prefix test from
`should_skip_wellsfargo_continuation_line`. -/
def wfNumDatePre (cs : List Char) : Bool :=
  let dn := countLeading Char.isDigit cs
  if dn = 0 then false
  else
    let r := cs.drop dn
    let k := countLeading isWsChar r
    if k = 0 then false
    else
      (takeDigits2or1 (r.drop k)).any fun dr =>
        match dr.2 with
        | '/' :: c :: _ => c.isDigit
        | _ => false

/-- `^(Number|Date|Amount|Units|Service|Description|Fee)` prefix test
(case-insensitive). -/
def wfColHeaderPre (cs : List Char) : Bool :=
  let low := lowerChars cs
  ["number", "date", "amount", "units", "service", "description", "fee"].any
    (fun w => litAt w.toList low)

/-- `^[•÷\-]{1,3}\s` prefix test. -/
def wfBulletPre (cs : List Char) : Bool :=
  let isB : Char → Bool := fun c => c = '•' || c = '÷' || c = '-'
  let run := countLeading isB cs
  1 ≤ run && run ≤ 3 &&
    (match cs.drop run with
     | c :: _ => isWsChar c
     | [] => false)

/-- `^[\d\$\.,\s÷•]+$` full test. -/
def wfSymbolsOnly (cs : List Char) : Bool :=
  !cs.isEmpty && cs.all (fun c =>
    c.isDigit || c = '$' || c = '.' || c = ',' || isWsChar c || c = '÷' || c = '•')

/-- `should_skip_wellsfargo_continuation_line` from the source. -/
def should_skip_wellsfargo_continuation_line (line : String) : Bool :=
  let s := stripChars line.toList
  let low := lowerChars s
  wfNumDatePre s || wfColHeaderPre s || wfBulletPre s ||
  hasSub low "fee period".toList || hasSub low "service charge".toList ||
  hasSub low "wellsfargo.com".toList || hasSub low "for a link to".toList ||
  s.isEmpty || s = "C1/C1".toList ||
  wfSymbolsOnly s

/-! ### `parse_amount_from_line` -/

/-- `parse_amount_from_line` from the source: returns
`(amount, leftover_memo)` when the line contains an amount. -/
def parse_amount_from_line (line : String) (memo_so_far : String) (brand : String) :
    Except Unit (Option ℤ × String) :=
  let cs := line.toList
  let tl : Option (List Char) × List Char :=
    if amountOnlyMatch cs then (some cs, [])
    else
      match amountWithBalanceMatch cs with
      | some (st, l) => (some ((cs.drop st).take l), stripChars (cs.take st ++ cs.drop (st + l)))
      | none =>
        match moneySearch cs with
        | some (st, l) => (some ((cs.drop st).take l), stripChars (cs.take st ++ cs.drop (st + l)))
        | none => (none, cs)
  match tl.1 with
  | none => .ok (none, ⟨stripChars cs⟩)
  | some token =>
    match clean_amount_str ⟨token⟩ with
    | .error e => .error e
    | .ok raw =>
      let amount_has_minus := decide (raw < 0)
      let desc_for_sign : String := ⟨stripChars (memo_so_far.toList ++ ' ' :: tl.2)⟩
      let sign := guess_sign desc_for_sign amount_has_minus brand
      let amount := |raw| * sign
      let leftover2 := stripChars (moneySub tl.2)
      .ok (some amount, ⟨memoCleanup leftover2⟩)

/-! ### The line-classification state machine (`process_statement_lines`)

The Python function keeps a `rows` list of dict references and a mutable
`current_tx` dict.  We model the dicts with a store (`store : List Tx`): the
`rows` list holds store indices and `cur` holds the index of the in-progress
builder, so aliasing between `rows` and `current_tx` is preserved. -/

/-- A transaction dict `{"Date": ..., "Amount": ..., "Memo": ...}`;
`Amount` is `None` or a float. -/
structure Tx where
  date : String
  amount : Option ℤ
  memo : String
deriving DecidableEq, Repr

/-- Placeholder for store lookups (never observed on reachable indices). -/
def defaultTx : Tx := ⟨"", none, ""⟩

/-- The `mode` variable: `None`, `'pattern'` or `'sm'`. -/
inductive PMode
  | off
  | pat
  | sm
deriving DecidableEq, Repr

/-- State of `process_statement_lines`. -/
structure PState where
  store : List Tx
  rowIds : List Nat
  cur : Option Nat
  mode : PMode
  currentYear : Option Nat
deriving DecidableEq, Repr

/-- Initial state: `rows = []`, `current_tx = None`,
`current_year = year_hint`, `mode = None`. -/
def initState (year_hint : Option Nat) : PState :=
  ⟨[], [], none, .off, year_hint⟩

/-- The repeated commit idiom
`if current_tx and (mode == "pattern" or (mode == "sm" and current_tx.get("Amount") is not None)): rows.append(current_tx)`.
It appends the reference and does not clear `current_tx`. -/
def commitPending (st : PState) : PState :=
  match st.cur with
  | none => st
  | some i =>
    if st.mode = .pat ∨ (st.mode = .sm ∧ (st.store.getD i defaultTx).amount.isSome) then
      { st with rowIds := st.rowIds ++ [i] }
    else st

/-- Allocate a fresh dict for `current_tx` and set the mode. -/
def pushTx (st : PState) (tx : Tx) (m : PMode) : PState :=
  { st with store := st.store ++ [tx], cur := some st.store.length, mode := m }

/-- Mutate the dict at index `i` in place. -/
def setStoreAt (st : PState) (i : Nat) (f : Tx → Tx) : PState :=
  { st with store := st.store.set i (f (st.store.getD i defaultTx)) }

/-- The `pattern.search(line)` branch (source lines 209-260). -/
def patternBranch (brand : String) (year_hint : Option Nat) (today : Nat)
    (st : PState) (dateFull dateShort : Option (List Char)) (desc0 amtStr0 : List Char) :
    Except Unit PState :=
  let st := commitPending st
  let dwt :=
    if brand = "wells" then
      match moneySearch desc0 with
      | some (p, l) => (stripChars (desc0.take p), (desc0.drop p).take l, true)
      | none => (desc0, amtStr0, false)
    else (desc0, amtStr0, false)
  let desc := dwt.1
  let amtStr := dwt.2.1
  let wellsTx := dwt.2.2
  let dateRes : Except Unit ((Nat × Nat × Nat) × Nat) :=
    match dateFull with
    | some df =>
      match strptimeMDY df false with
      | some (m, d, y) => .ok ((m, d, y), y)
      | none => .error ()
    | none =>
      let cy := st.currentYear.getD (year_hint.getD today)
      match strptimeMDY ((dateShort.getD []) ++ '/' :: lastTwoChars (natChars cy)) false with
      | some (m, d, y) => .ok ((m, d, y), cy)
      | none => .error ()
  match dateRes with
  | .error e => .error e
  | .ok ((m, d, y), cy) =>
    let dfmt := dateFmt m d y
    let amtClean :=
      stripChars (amtStr.filter (fun c => !(c = '$' || c = ',' || c = '+' || c = '-')))
    match floatParse amtClean with
    | none => .error ()
    | some amount0 =>
      let sAmt := stripChars amtStr
      let amount :=
        if sAmt.head? = some '-' || sAmt.getLast? = some '-' then -amount0
        else if wellsTx then amount0 * guess_sign ⟨desc⟩ false brand
        else amount0
      .ok (pushTx { st with currentYear := some cy }
            ⟨dfmt, some amount, ⟨stripChars desc⟩⟩ .pat)

/-- The `DATE_START.match(line)` branch (source lines 262-308). -/
def dateStartBranch (brand : String) (year_hint : Option Nat) (today : Nat)
    (st : PState) (dateRaw rest0 : List Char) : Except Unit PState :=
  let st := commitPending st
  let rest1 :=
    match headerFind rest0 with
    | some p => rest0.take p
    | none => rest0
  let rest := stripChars rest1
  match normalize_date ⟨dateRaw⟩ (st.currentYear <|> year_hint) today with
  | .error e => .error e
  | .ok (m, d, y) =>
    let st := { st with currentYear := some y }
    let i := st.store.length
    let st := pushTx st ⟨dateFmt m d y, none, ⟨rest⟩⟩ .sm
    if rest.isEmpty then .ok st
    else
      match moneySearch rest with
      | some (p, l) =>
        let amtRaw := (rest.drop p).take l
        let memo := stripChars (rest.take p)
        match floatParse ((moneyStrip amtRaw).filter (· ≠ '-')) with
        | none => .error ()
        | some amount =>
          let hasMinus := amtRaw.any (· = '-')
          let sign := guess_sign ⟨memo⟩ hasMinus brand
          let amt := amount * (if sign < 0 then (-1 : ℤ) else 1)
          let st := setStoreAt st i (fun tx => { tx with memo := ⟨memo⟩, amount := some amt })
          if brand ≠ "wells" then
            .ok { st with rowIds := st.rowIds ++ [i], cur := none, mode := .off }
          else .ok st
      | none =>
        match parse_amount_from_line ⟨rest⟩ ⟨rest⟩ brand with
        | .error e => .error e
        | .ok (amt?, leftover) =>
          match amt? with
          | none => .ok st
          | some amt =>
            let st := setStoreAt st i (fun tx =>
              { tx with
                memo := if leftover ≠ "" then leftover else tx.memo,
                amount := some amt })
            if brand ≠ "wells" then
              .ok { st with rowIds := st.rowIds ++ [i], cur := none, mode := .off }
            else .ok st

/-- Python `' '.join(parts)`. -/
def joinSpace (ps : List (List Char)) : List Char :=
  match ps with
  | [] => []
  | [p] => p
  | p :: rest => p ++ ' ' :: joinSpace rest

/-- Python `s.split(None, 2)`: whitespace split with at most two splits; the
residual third chunk keeps its trailing (but not leading) whitespace. -/
def splitWsMax2 (cs : List Char) : List (List Char) :=
  let r1 := cs.dropWhile isWsChar
  if r1.isEmpty then []
  else
    let t1 := r1.takeWhile (fun c => !isWsChar c)
    let r2 := (r1.drop t1.length).dropWhile isWsChar
    if r2.isEmpty then [t1]
    else
      let t2 := r2.takeWhile (fun c => !isWsChar c)
      let r3 := (r2.drop t2.length).dropWhile isWsChar
      if r3.isEmpty then [t1, t2] else [t1, t2, r3]

/-- The `ABBREV_MONTH_DATE.match(line)` branch (source lines 311-364).
When the split-off description contains no money token, the branch ends
without clearing `current_tx` or `mode` (although it may just have appended
`current_tx` to `rows`). -/
def abbrevBranch (brand : String) (year_hint : Option Nat) (today : Nat)
    (st : PState) (mon : String) (dayCs rest0 : List Char) : Except Unit PState :=
  let st := commitPending st
  let rest := stripChars rest0
  let parts := splitWsMax2 rest
  let desc_and_amount :=
    if parts.length ≥ 3 then
      if allDigits (parts.getD 1 []) then parts.getD 2 []
      else joinSpace (parts.drop 1)
    else if parts.length = 2 then parts.getD 1 []
    else rest
  match parse_abbreviated_month_date mon dayCs (st.currentYear <|> year_hint) today with
  | .error e => .error e
  | .ok (m, d, y) =>
    let st := { st with currentYear := some y }
    match moneySearch desc_and_amount with
    | some (p, l) =>
      let amtRaw := (desc_and_amount.drop p).take l
      let memo := stripChars (desc_and_amount.take p)
      match floatParse ((moneyStrip amtRaw).filter (· ≠ '-')) with
      | none => .error ()
      | some amount =>
        let hasMinus := amtRaw.any (· = '-')
        let sign := guess_sign ⟨memo⟩ hasMinus brand
        let tx : Tx := ⟨dateFmt m d y, some (amount * (if sign < 0 then (-1 : ℤ) else 1)), ⟨memo⟩⟩
        .ok { st with
              store := st.store ++ [tx],
              rowIds := st.rowIds ++ [st.store.length],
              cur := none, mode := .off }
    | none => .ok st

/-- The `mode == "pattern" and current_tx` continuation (source lines 366-367):
`current_tx["Memo"] += " " + line` (no strip). -/
def patModeCont (st : PState) (i : Nat) (line : List Char) : PState :=
  setStoreAt st i (fun tx => { tx with memo := tx.memo ++ " " ++ ⟨line⟩ })

/-- The `mode == "sm" and current_tx` continuation (source lines 370-397). -/
def smModeCont (brand : String) (st : PState) (i : Nat) (line : List Char) :
    Except Unit PState :=
  let tx := st.store.getD i defaultTx
  if headerSearch line then
    if brand = "wells" ∧ tx.amount.isSome ∧ totalsWordSearch line then
      .ok { st with rowIds := st.rowIds ++ [i], cur := none, mode := .off }
    else .ok st
  else if brand = "wells" ∧ tx.amount.isSome then
    if should_skip_wellsfargo_continuation_line ⟨line⟩ then .ok st
    else .ok (setStoreAt st i (fun t =>
      { t with memo := ⟨stripChars (t.memo.toList ++ ' ' :: line)⟩ }))
  else
    match parse_amount_from_line ⟨line⟩ tx.memo brand with
    | .error e => .error e
    | .ok (amt?, leftover) =>
      match amt? with
      | some amt =>
        let st := setStoreAt st i (fun t =>
          { t with
            memo := if leftover ≠ "" then ⟨stripChars (t.memo.toList ++ ' ' :: leftover.toList)⟩
                    else t.memo,
            amount := some amt })
        .ok { st with rowIds := st.rowIds ++ [i], cur := none, mode := .off }
      | none =>
        .ok (setStoreAt st i (fun t =>
          { t with memo := ⟨stripChars (t.memo.toList ++ ' ' :: line)⟩ }))

/-- One iteration of the `for raw_line in lines` loop. -/
def stepLine (brand : String) (year_hint : Option Nat) (today : Nat)
    (st : PState) (rawLine : String) : Except Unit PState :=
  let line := stripChars rawLine.toList
  if line.isEmpty then .ok st
  else
    match patternMatch line with
    | some (df, dsh, desc, amt) => patternBranch brand year_hint today st df dsh desc amt
    | none =>
      match dateStartMatch line with
      | some (draw, rest) => dateStartBranch brand year_hint today st draw rest
      | none =>
        match abbrevMatch line with
        | some (mon, day, rest) => abbrevBranch brand year_hint today st mon day rest
        | none =>
          match st.cur with
          | some i =>
            if st.mode = .pat then .ok (patModeCont st i line)
            else if st.mode = .sm then smModeCont brand st i line
            else .ok st
          | none => .ok st

/-- `process_statement_lines`, returning the final machine state
(including the store and the committed row indices). -/
def processState (lines : List String) (brand : String) (year_hint : Option Nat)
    (today : Nat) : Except Unit PState :=
  match lines.foldlM (stepLine brand year_hint today) (initState year_hint) with
  | .error e => .error e
  | .ok st => .ok (commitPending st)

/-- `process_statement_lines` from the source: the returned `rows` list,
reading each appended reference out of the store. -/
def process_statement_lines (lines : List String) (brand : String)
    (year_hint : Option Nat) (today : Nat) : Except Unit (List Tx) :=
  (processState lines brand year_hint today).map
    (fun st => st.rowIds.map (fun i => st.store.getD i defaultTx))

/-! ### Memo cleanup and deduplication (`parse_pdf`, source lines 554-566) -/

/-- Python `round(x, 2)` on the cents model of floats: every engine amount
is an exact multiple of 1/100, and rounding such a value to two decimal
places returns it unchanged. -/
def roundTo2 (c : ℤ) : ℤ := c

/-- Memo truncation applied to a record
(`r["Memo"] = MEMO_CLEAN_RE.split(r["Memo"])[0].strip()` under its guard). -/
def cleanupTx (t : Tx) : Tx := { t with memo := ⟨memoCleanup t.memo.toList⟩ }

/-- The dedup key `(r["Date"], round(r["Amount"], 2), r["Memo"])`. -/
def txKey (t : Tx) : String × Option ℤ × String :=
  (t.date, t.amount.map roundTo2, t.memo)

/-- The `seen`-set loop of `parse_pdf`: drop records whose key was already
seen, preserving first-seen order. -/
def dedupByKey : List Tx → List (String × Option ℤ × String) → List Tx
  | [], _ => []
  | r :: rs, seen =>
    if txKey r ∈ seen then dedupByKey rs seen
    else r :: dedupByKey rs (txKey r :: seen)

/-- The whole post-processing stage of `parse_pdf`: memo cleanup on every
record, then key-based deduplication. -/
def dedupStage (rows : List Tx) : List Tx := dedupByKey (rows.map cleanupTx) []

/-! ### `parse_pdf` (primary path, fallback trigger, post-processing)

The external `pdfplumber` extractor is modelled by the page text list
`pages : List (Option String)` (`none` = page without text) plus a flag
`pagesOk` (`false` models an exception raised anywhere inside the
`pdfplumber` block, after which the source resets `rows = []`).  The raw
fallback extractor's output is passed in as `fallback`. -/

/-- Python `text.split("\n")`. -/
def splitNewline (s : String) : List String :=
  (splitOnCh '\n' s.toList).map (fun l => ⟨l⟩)

/-- `detect_brand`: brand from the concatenated text of the first two pages. -/
def detectBrandDoc (pages : List (Option String)) : String :=
  detect_brand_from_text ⟨joinSpace ((pages.take 2).map (fun p => (p.getD "").toList))⟩

/-- The rows produced by the primary page-based path, after `parse_pdf`'s
`try`/`except` (an exception from any page, or from the extractor itself,
leaves `rows = []`). -/
def primaryRows (pages : List (Option String)) (pagesOk : Bool)
    (year_hint : Option Nat) (today : Nat) : List Tx :=
  if !pagesOk then []
  else
    let brand := if pages.isEmpty then "generic" else detectBrandDoc pages
    let run := pages.foldlM
      (fun acc p? =>
        match p? with
        | none => Except.ok acc
        | some text =>
          if text.isEmpty then Except.ok acc
          else (process_statement_lines (splitNewline text) brand year_hint today).map
            (fun rs => acc ++ rs))
      ([] : List Tx)
    match run with
    | .ok rs => rs
    | .error _ => []

/-- `parse_pdf` from the source.  Returns the final record list (the fallback
re-parse runs outside the `try`, so its exceptions escape) together with a
flag recording whether `extract_fallback_lines` was invoked. -/
def parse_pdf_model (pages : List (Option String)) (pagesOk : Bool)
    (fallback : List String × Option String) (fileName : Option String) (today : Nat) :
    Except Unit (List Tx) × Bool :=
  let year_hint := fileName.bind infer_year_from_filename
  let brand := if pages.isEmpty then "generic" else detectBrandDoc pages
  let primary := primaryRows pages pagesOk year_hint today
  if primary.isEmpty then
    let res :=
      if fallback.1.isEmpty then Except.ok ([] : List Tx)
      else process_statement_lines fallback.1 (fallback.2.getD brand) year_hint today
    (res.map dedupStage, true)
  else
    (Except.ok (dedupStage primary), false)

/-! ### Stream handling of `extract_fallback_lines` (source lines 417-431)

The file-like source is modelled as a byte list plus a position; `tellOk`
and `seekOk` model whether `tell`/`seek` raise `OSError` (the source
swallows those failures).  Everything after the `read()` — stream-region
search, `zlib` inflation, text-operator extraction, re-segmentation — is
abstracted by the pure `processData` parameter, which the stream-position
property does not depend on. -/

/-- A seekable file-like object. -/
structure FileStream where
  contents : List Nat
  pos : Nat
  tellOk : Bool
  seekOk : Bool

/-- The stream interaction of `extract_fallback_lines` on a file-like source:
record `pos = tell()` (if it succeeds), `seek(0)` (failure swallowed), read
to the end, then restore the recorded position (failure swallowed).
Returns (result, final stream, bytes read). -/
def extract_fallback_lines_io (processData : List Nat → List String × Option String)
    (fs : FileStream) : (List String × Option String) × FileStream × List Nat :=
  let savedPos := if fs.tellOk then some fs.pos else none
  let fs1 := if fs.seekOk then { fs with pos := 0 } else fs
  let data := fs1.contents.drop fs1.pos
  let fs2 := { fs1 with pos := fs1.contents.length }
  let fs3 :=
    match savedPos with
    | some p => if fs.seekOk then { fs2 with pos := p } else fs2
    | none => fs2
  let result := if data.isEmpty then ([], none) else processData data
  (result, fs3, data)

/-! ### Remaining auxiliary definitions -/

instance {ε α : Type} [DecidableEq ε] [DecidableEq α] : DecidableEq (Except ε α) := fun x y =>
  match x, y with
  | .ok a, .ok b =>
    if h : a = b then .isTrue (by rw [h]) else .isFalse (by simp [h])
  | .error a, .error b =>
    if h : a = b then .isTrue (by rw [h]) else .isFalse (by simp [h])
  | .ok _, .error _ => .isFalse (fun h => Except.noConfusion h)
  | .error _, .ok _ => .isFalse (fun h => Except.noConfusion h)

/-- Invariant of the state machine: every committed row index points into the
store at a record with a resolved amount; the in-progress index is in range;
and in `pattern` mode the in-progress record always has a resolved amount. -/
def MachineInv (st : PState) : Prop :=
  (∀ i ∈ st.rowIds, i < st.store.length ∧ (st.store.getD i defaultTx).amount.isSome = true) ∧
  (∀ i, st.cur = some i → i < st.store.length) ∧
  (st.mode = .pat → ∀ i, st.cur = some i → (st.store.getD i defaultTx).amount.isSome = true)

/-! ## Theorems

First some generic helper lemmas, then one theorem per claim (with
counterexamples and witnesses where required). -/

theorem getD_set_lemma {α : Type} (l : List α) (i j : Nat) (a d : α) :
    (l.set i a).getD j d = if i = j ∧ j < l.length then a else l.getD j d := by
  induction l generalizing i j with
  | nil => simp [List.getD]
  | cons x xs ih =>
    cases i with
    | zero =>
      cases j with
      | zero => simp [List.getD]
      | succ j' => simp [List.getD, List.getElem?_cons_succ, Nat.succ_lt_succ_iff]
    | succ i' =>
      cases j with
      | zero => simp [List.getD]
      | succ j' =>
        simp only [List.set_cons_succ, List.getD_cons_succ, ih i' j',
          List.length_cons, Nat.succ_lt_succ_iff, Nat.succ_inj]

theorem getD_append_lt {α : Type} (l l' : List α) (i : Nat) (d : α) (h : i < l.length) :
    (l ++ l').getD i d = l.getD i d := by
  induction l generalizing i with
  | nil => simp at h
  | cons x xs ih =>
    cases i with
    | zero => simp [List.getD]
    | succ i' =>
      simp only [List.cons_append, List.getD_cons_succ]
      exact ih i' (Nat.lt_of_succ_lt_succ h)

theorem getD_append_len {α : Type} (l : List α) (a d : α) :
    (l ++ [a]).getD l.length d = a := by
  induction l with
  | nil => simp [List.getD]
  | cons x xs ih => simp [List.getD, ih]


/-- Case-analysis form of `guess_sign` (definitional). -/
theorem guess_sign_eq (desc : String) (m : Bool) (brand : String) :
    guess_sign desc m brand =
      if (decide (brand = "amex") && m &&
          (hasSub (lowerChars desc.toList) "credit".toList
            || hasSub (lowerChars desc.toList) "refund".toList)) = true then 1
      else if m = true then -1
      else if hasNegHint (lowerChars desc.toList) = true then -1
      else if hasPosHint (lowerChars desc.toList) = true then 1
      else if brand = "wells" then 1 else -1 := rfl

/-- C2: for every description, explicit-sign flag and brand, `guess_sign`
returns exactly `+1` or `-1`, and follows the fixed precedence:
(1) for the `amex` brand an explicit minus together with a credit/refund
keyword yields `+1`; (2) otherwise an explicit minus yields `-1`;
(3) otherwise a negative-hint keyword match yields `-1`; (4) otherwise a
positive-hint keyword match yields `+1`; (5) otherwise the brand default:
`+1` for the `wells` brand, `-1` for every other brand. -/
theorem c2_guess_sign_precedence :
    (∀ (desc : String) (m : Bool) (brand : String),
      guess_sign desc m brand = 1 ∨ guess_sign desc m brand = -1) ∧
    (∀ (desc : String) (brand : String),
      brand = "amex" →
      (hasSub (lowerChars desc.toList) "credit".toList
        || hasSub (lowerChars desc.toList) "refund".toList) = true →
      guess_sign desc true brand = 1) ∧
    (∀ (desc : String) (brand : String),
      ¬(brand = "amex" ∧
        (hasSub (lowerChars desc.toList) "credit".toList
          || hasSub (lowerChars desc.toList) "refund".toList) = true) →
      guess_sign desc true brand = -1) ∧
    (∀ (desc : String) (brand : String),
      hasNegHint (lowerChars desc.toList) = true →
      guess_sign desc false brand = -1) ∧
    (∀ (desc : String) (brand : String),
      hasNegHint (lowerChars desc.toList) = false →
      hasPosHint (lowerChars desc.toList) = true →
      guess_sign desc false brand = 1) ∧
    (∀ (desc : String) (brand : String),
      hasNegHint (lowerChars desc.toList) = false →
      hasPosHint (lowerChars desc.toList) = false →
      guess_sign desc false brand = if brand = "wells" then 1 else -1) := by
  refine ⟨?_, ?_, ?_, ?_, ?_, ?_⟩
  · intro desc m brand
    rw [guess_sign_eq]
    split
    · exact Or.inl rfl
    · split
      · exact Or.inr rfl
      · split
        · exact Or.inr rfl
        · split
          · exact Or.inl rfl
          · split
            · exact Or.inl rfl
            · exact Or.inr rfl
  · intro desc brand hb hk
    subst hb
    rw [guess_sign_eq, show decide ("amex" = "amex") = true from rfl,
      Bool.true_and, Bool.true_and, hk, if_pos rfl]
  · intro desc brand h
    by_cases hb : brand = "amex"
    · have hkw : (hasSub (lowerChars desc.toList) "credit".toList
          || hasSub (lowerChars desc.toList) "refund".toList) = false := by
        cases hkw : (hasSub (lowerChars desc.toList) "credit".toList
            || hasSub (lowerChars desc.toList) "refund".toList) with
        | true => exact absurd ⟨hb, hkw⟩ h
        | false => rfl
      subst hb
      rw [guess_sign_eq, show decide ("amex" = "amex") = true from rfl,
        Bool.true_and, Bool.true_and, hkw, if_neg Bool.false_ne_true, if_pos rfl]
    · rw [guess_sign_eq, decide_eq_false hb, Bool.false_and, Bool.false_and,
        if_neg Bool.false_ne_true, if_pos rfl]
  · intro desc brand h
    rw [guess_sign_eq, Bool.and_false, Bool.false_and, if_neg Bool.false_ne_true,
      if_neg Bool.false_ne_true, h, if_pos rfl]
  · intro desc brand h1 h2
    rw [guess_sign_eq, Bool.and_false, Bool.false_and, if_neg Bool.false_ne_true,
      if_neg Bool.false_ne_true, h1, if_neg Bool.false_ne_true, h2, if_pos rfl]
  · intro desc brand h1 h2
    rw [guess_sign_eq, Bool.and_false, Bool.false_and, if_neg Bool.false_ne_true,
      if_neg Bool.false_ne_true, h1, if_neg Bool.false_ne_true, h2,
      if_neg Bool.false_ne_true]

/-- C2 witness: the precedence theorem applied at a concrete input (the
negative hint "purchase authorized" forces `-1` for an unsigned amount). -/
theorem c2_guess_sign_precedence_witness :
    guess_sign "ACME Purchase Authorized 123" false "amex" = -1 :=
  c2_guess_sign_precedence.2.2.2.1 "ACME Purchase Authorized 123" "amex" (by decide)

/-- `str.split(sep)` never returns an empty list. -/
theorem splitOnCh_ne_nil (sep : Char) (cs : List Char) : splitOnCh sep cs ≠ [] := by
  induction cs with
  | nil => simp [splitOnCh]
  | cons c t ih =>
    simp only [splitOnCh]
    rcases h : splitOnCh sep t with _ | ⟨h1, r⟩
    · exact absurd h ih
    · simp only [h]
      by_cases hc : c = sep <;> simp [hc]

/-- A character other than the separator lands in one of the split parts. -/
theorem mem_splitOnCh {c sep : Char} :
    ∀ {cs : List Char}, c ∈ cs → c ≠ sep → ∃ p ∈ splitOnCh sep cs, c ∈ p := by
  intro cs
  induction cs with
  | nil => intro h; exact absurd h (List.not_mem_nil c)
  | cons a t ih =>
    intro hmem hne
    rcases hsp : splitOnCh sep t with _ | ⟨h1, r⟩
    · exact absurd hsp (splitOnCh_ne_nil sep t)
    · rcases List.mem_cons.mp hmem with hca | hct
      · subst hca
        by_cases ha : c = sep
        · exact absurd ha hne
        · refine ⟨c :: h1, ?_, List.mem_cons_self c h1⟩
          simp [splitOnCh, hsp, ha]
      · obtain ⟨p, hp, hcp⟩ := ih hct hne
        rw [hsp] at hp
        by_cases ha : a = sep
        · refine ⟨p, ?_, hcp⟩
          simp only [splitOnCh, hsp, if_pos ha]
          exact List.mem_cons_of_mem _ hp
        · rcases List.mem_cons.mp hp with hph | hpr
          · subst hph
            refine ⟨a :: p, ?_, List.mem_cons_of_mem _ hcp⟩
            simp [splitOnCh, hsp, ha]
          · refine ⟨p, ?_, hcp⟩
            simp only [splitOnCh, hsp, if_neg ha]
            exact List.mem_cons_of_mem _ hpr

/-- If `float` succeeds on the part after the sign character, that part
contains no minus sign. -/
theorem floatCore_no_minus {neg : Bool} {r : List Char} {q : ℤ}
    (h : floatCore neg r = some q) : '-' ∉ r := by
  intro hm
  obtain ⟨p, hp, hcp⟩ := @mem_splitOnCh '-' '.' r hm (by decide)
  unfold floatCore at h
  rcases hsp : splitOnCh '.' r with _ | ⟨ip, _ | ⟨fp, _ | _⟩⟩ <;> rw [hsp] at h hp <;>
    simp only [] at h
  · exact absurd hp (List.not_mem_nil p)
  · split at h
    · rename_i hd
      have hip : p = ip := by simpa using hp
      subst hip
      have hall : p.all Char.isDigit = true := by
        simp only [allDigits, Bool.and_eq_true] at hd
        exact hd.2
      have : ('-' : Char).isDigit = true := (List.all_eq_true.mp hall) '-' hcp
      exact absurd this (by decide)
    · exact Option.noConfusion h
  · split at h
    · rename_i hd
      simp only [Bool.and_eq_true] at hd
      have : ('-' : Char).isDigit = true := by
        rcases List.mem_cons.mp hp with h1 | h1
        · subst h1
          exact (List.all_eq_true.mp hd.1.1.1) '-' hcp
        · have h2 : p = fp := by simpa using h1
          subst h2
          exact (List.all_eq_true.mp hd.1.1.2) '-' hcp
      exact absurd this (by decide)
    · exact Option.noConfusion h
  · exact Option.noConfusion h

/-- The sign of a successful `float` conversion is decided entirely by the
leading sign character. -/
theorem floatCore_sign {neg : Bool} {r : List Char} {q : ℤ}
    (h : floatCore neg r = some q) : (neg = false → 0 ≤ q) ∧ (neg = true → q ≤ 0) := by
  unfold floatCore at h
  rcases hsp : splitOnCh '.' r with _ | ⟨ip, _ | ⟨fp, _ | _⟩⟩ <;> rw [hsp] at h <;>
    simp only [] at h
  · exact Option.noConfusion h
  · split at h
    · have hq : ((if neg then (-1:ℤ) else 1) * (digitsVal ip : ℤ) * 100) = q :=
        Option.some.inj h
      have hnn : (0:ℤ) ≤ (digitsVal ip : ℤ) * 100 :=
        mul_nonneg (Int.natCast_nonneg _) (by norm_num)
      cases neg with
      | false =>
        refine ⟨fun _ => ?_, fun hf => Bool.noConfusion hf⟩
        simp only [Bool.false_eq_true, if_false, one_mul] at hq
        linarith [hq ▸ hnn]
      | true =>
        refine ⟨fun hf => Bool.noConfusion hf, fun _ => ?_⟩
        simp only [if_true] at hq
        nlinarith [hnn]
    · exact Option.noConfusion h
  · split at h
    · have hq : ((if neg then (-1:ℤ) else 1) *
          ((digitsVal ip : ℤ) * 100 + (digitsVal fp : ℤ) * 10 ^ (2 - fp.length))) = q :=
        Option.some.inj h
      have h1 : (0:ℤ) ≤ (digitsVal ip : ℤ) * 100 :=
        mul_nonneg (Int.natCast_nonneg _) (by norm_num)
      have h2 : (0:ℤ) ≤ (digitsVal fp : ℤ) * 10 ^ (2 - fp.length) :=
        mul_nonneg (Int.natCast_nonneg _) (pow_nonneg (by norm_num) _)
      cases neg with
      | false =>
        refine ⟨fun _ => ?_, fun hf => Bool.noConfusion hf⟩
        simp only [Bool.false_eq_true, if_false, one_mul] at hq
        linarith [hq ▸ (add_nonneg h1 h2)]
      | true =>
        refine ⟨fun hf => Bool.noConfusion hf, fun _ => ?_⟩
        simp only [if_true] at hq
        nlinarith [h1, h2]
    · exact Option.noConfusion h
  · exact Option.noConfusion h

/-- `float` on a string not starting with a sign character. -/
theorem floatParse_other {c : Char} {t : List Char} (hcm : c ≠ '-') (hcp : c ≠ '+') :
    floatParse (c :: t) = floatCore false (c :: t) := by
  unfold floatParse
  split
  · rename_i heq
    exact absurd (List.cons.inj heq).1 hcm
  · rename_i heq
    exact absurd (List.cons.inj heq).1 hcp
  · rfl

/-- `clean_amount_str` can only return non-negative values: when the token
contains a minus it is necessarily leading, `float` already returns a
non-positive value, and the function's final `-amount if negative` negates
it back. -/
theorem clean_amount_str_nonneg {s : String} {q : ℤ}
    (h : clean_amount_str s = .ok q) : 0 ≤ q := by
  unfold clean_amount_str at h
  rcases hmt : moneyToken s.toList with _ | token <;> rw [hmt] at h
  · exact Except.noConfusion h
  · simp only [] at h
    split at h
    · exact Except.noConfusion h
    · rcases hfp : floatParse (moneyStrip token) with _ | amount <;> rw [hfp] at h
      · exact Except.noConfusion h
      · have hq : (if token.any (fun c => c = '-') then -amount else amount) = q :=
          Except.ok.inj h
        by_cases hneg : token.any (fun c => c = '-') = true
        · -- the token contains a minus: it survives the stripper, so `float`
          -- already returned a non-positive value and the negation flips it
          have hmem : '-' ∈ token := by
            obtain ⟨c, hc, hc'⟩ := List.any_eq_true.mp hneg
            rwa [show c = '-' from by simpa using hc'] at hc
          have hmem2 : '-' ∈ moneyStrip token := by
            refine List.mem_filter.mpr ⟨hmem, by decide⟩
          have hle : amount ≤ 0 := by
            rcases hms : moneyStrip token with _ | ⟨c, t⟩ <;> rw [hms] at hfp hmem2
            · exact absurd hmem2 (List.not_mem_nil '-')
            · by_cases hcm : c = '-'
              · subst hcm
                exact (floatCore_sign (by simpa [floatParse] using hfp)).2 rfl
              · by_cases hcp : c = '+'
                · subst hcp
                  have : '-' ∈ t := by
                    rcases List.mem_cons.mp hmem2 with h' | h'
                    · exact absurd h'.symm (by decide)
                    · exact h'
                  exact absurd this
                    (floatCore_no_minus (by simpa [floatParse] using hfp))
                · have hfp' : floatCore false (c :: t) = some amount := by
                    rw [← floatParse_other hcm hcp]; exact hfp
                  exact absurd hmem2 (floatCore_no_minus hfp')
          rw [if_pos hneg] at hq
          omega
        · have hnn : 0 ≤ amount := by
            have hnomem : '-' ∉ moneyStrip token := by
              intro hmm
              exact hneg (List.any_eq_true.mpr
                ⟨'-', (List.mem_filter.mp hmm).1, by simp⟩)
            rcases hms : moneyStrip token with _ | ⟨c, t⟩ <;> rw [hms] at hfp hnomem
            · exact (floatCore_sign (by simpa [floatParse] using hfp)).1 rfl
            · by_cases hcm : c = '-'
              · subst hcm
                exact absurd (List.mem_cons_self _ _) hnomem
              · by_cases hcp : c = '+'
                · subst hcp
                  exact (floatCore_sign (by simpa [floatParse] using hfp)).1 rfl
                · have hfp' : floatCore false (c :: t) = some amount := by
                    rw [← floatParse_other hcm hcp]; exact hfp
                  exact (floatCore_sign hfp').1 rfl
          rw [if_neg hneg] at hq
          omega

/-- C8 counterexample: the claim says a trailing minus (as in `"5.00-"`)
makes the extracted value negative; in fact `MONEY_INLINE` has no trailing
`-?`, the matched token is just `5.00`, and the result is +5.00 (modelled as
500 cents), not negative. -/
theorem c8_counterexample :
    clean_amount_str "5.00-" = .ok 500 ∧ ¬(500 : ℤ) < 0 := ⟨by decide, by decide⟩

/-- C8 amended: `clean_amount_str` over `MONEY_INLINE` never returns a
negative value at all — a trailing minus is not part of the matched token
(`moneyToken "5.00-" = some "5.00"`), and even a leading minus is cancelled
because `float` already honours it and the function then negates the result
(`clean_amount_str "-5.00" = +5.00`).  Trailing-minus negativity is handled
only by the single-line `pattern` path, not by this tokenizer. -/
theorem c8_amended :
    (∀ (s : String) (q : ℤ), clean_amount_str s = .ok q → 0 ≤ q) ∧
    moneyToken "5.00-".toList = some "5.00".toList ∧
    clean_amount_str "-5.00" = .ok 500 ∧
    clean_amount_str "5.00-" = .ok 500 :=
  ⟨fun _ _ h => clean_amount_str_nonneg h, by decide, by decide, by decide⟩

/-- C8 witness: the non-negativity statement applied at a concrete input. -/
theorem c8_amended_witness :
    clean_amount_str "4.50" = .ok 450 ∧ (0 : ℤ) ≤ 450 :=
  ⟨by decide, c8_amended.1 "4.50" 450 (by decide)⟩

/-- C9 counterexample: the claim says a 4-digit year in the filename is
returned; the code only recognises `20\d{2}`, so the 4-digit year 1984 in
"statement 1984.pdf" is not found and the result is `None`. -/
theorem c9_counterexample :
    infer_year_from_filename "statement 1984.pdf" ≠ some 1984 ∧
    infer_year_from_filename "statement 1984.pdf" = none := ⟨by decide, by decide⟩

/-- C9 amended: `infer_year_from_filename` returns the year of the first
`20xx` token when one exists (even when a 6-digit token comes first);
otherwise `2000` plus the last two digits of the first 6-digit token;
otherwise `None` (4-digit years outside `20xx` are not recognised).  The
scenario holds: "083125 WellsFargo.pdf" yields hint 2025 and a bare "8/1"
resolves against that hint to 8/1/2025 regardless of the current year. -/
theorem c9_amended :
    infer_year_from_filename "stmt 2024.pdf" = some 2024 ∧
    infer_year_from_filename "123456 2024.pdf" = some 2024 ∧
    infer_year_from_filename "083125 WellsFargo.pdf" = some 2025 ∧
    infer_year_from_filename "scan.pdf" = none ∧
    infer_year_from_filename "" = none ∧
    normalize_date "8/1" (some 2025) 2031 = .ok (8, 1, 2025) := by
  refine ⟨by decide, by decide, by decide, by decide, by decide, by decide⟩

/-- C10: for every seekable file-like source whose `tell()` succeeds,
`extract_fallback_lines` records the position on entry, reads the entire
stream from offset 0, and restores the recorded position before returning. -/
theorem c10_stream_position (processData : List Nat → List String × Option String)
    (fs : FileStream) (ht : fs.tellOk = true) (hs : fs.seekOk = true) :
    (extract_fallback_lines_io processData fs).2.1.pos = fs.pos ∧
    (extract_fallback_lines_io processData fs).2.2 = fs.contents := by
  unfold extract_fallback_lines_io
  simp [ht, hs]

/-- C10 witness: the position property at a concrete 3-byte stream sitting
at position 2. -/
theorem c10_stream_position_witness :
    (extract_fallback_lines_io (fun _ => ([], none)) ⟨[1, 2, 3], 2, true, true⟩).2.1.pos = 2 ∧
    (extract_fallback_lines_io (fun _ => ([], none)) ⟨[1, 2, 3], 2, true, true⟩).2.2 = [1, 2, 3] :=
  c10_stream_position (fun _ => ([], none)) ⟨[1, 2, 3], 2, true, true⟩ rfl rfl

/-- C1 counterexample: processing the single line
`"03/05/24 Coffee Shop Purchase 4.50"` with the generic brand yields one
record `{3/5/2024, +4.50, "Coffee Shop Purchase"}` — the amount is
**positive** (450 cents), not the claimed −4.50: the single-line `pattern`
branch never applies the keyword heuristic for non-wells brands. -/
theorem c1_counterexample :
    process_statement_lines ["03/05/24 Coffee Shop Purchase 4.50"] "generic" (some 2024) 2025 =
      .ok [⟨"3/5/2024", some 450, "Coffee Shop Purchase"⟩] ∧
    some (450 : ℤ) ≠ some (-450 : ℤ) := ⟨by decide, by decide⟩

/-- C1 amended: for any year hint and current year, the line yields exactly
one record with date 3/5/2024 and memo "Coffee Shop Purchase", but with
amount +4.50: in the single-line pattern path the sign heuristic
(`guess_sign`) runs only for an explicit minus or for the wells brand, so an
unsigned amount under the generic brand keeps its positive sign. -/
theorem c1_amended (year_hint : Option Nat) (today : Nat) :
    process_statement_lines ["03/05/24 Coffee Shop Purchase 4.50"] "generic" year_hint today =
      .ok [⟨"3/5/2024", some 450, "Coffee Shop Purchase"⟩] := rfl

/-- C4 failing input (code bug): on
`["03/05/24 Coffee 4.50", "Aug02 nothing here", "extra memo"]` the
abbreviated-month branch commits the pending builder but — because the line
holds no money token — never clears `current_tx`.  The final machine state
shows `rowIds = [0, 0]`: the same dict is appended twice, and its memo was
mutated (absorbing "extra memo") *after* the first append, so both output
rows carry the post-append memo "Coffee extra memo". -/
theorem c4_failing_input_eval :
    processState ["03/05/24 Coffee 4.50", "Aug02 nothing here", "extra memo"]
        "generic" (some 2024) 2025 =
      .ok ⟨[⟨"3/5/2024", some 450, "Coffee extra memo"⟩], [0, 0], some 0, .pat, some 2024⟩ ∧
    process_statement_lines ["03/05/24 Coffee 4.50", "Aug02 nothing here", "extra memo"]
        "generic" (some 2024) 2025 =
      .ok [⟨"3/5/2024", some 450, "Coffee extra memo"⟩,
           ⟨"3/5/2024", some 450, "Coffee extra memo"⟩] := ⟨by decide, by decide⟩

/-- C5 counterexample: a date-shaped token failing calendar validation
("99/99") raises out of `process_statement_lines` — the result is an error,
not a record list, so the line is not "skipped" and the remaining valid line
does not produce its record. -/
theorem c5_counterexample :
    process_statement_lines ["99/99 foo", "03/05/24 Coffee Shop Purchase 4.50"]
      "generic" (some 2024) 2025 = .error () := by decide

/-- C5 amended: a calendar-invalid date-shaped line makes
`process_statement_lines` raise `ValueError` (the `normalize_date` call is
not guarded); `parse_pdf` catches the exception, discards *all* primary
records of the document (`primaryRows = []`), and proceeds to invoke the
raw-stream fallback.  Recovery is per-document, not per-line. -/
theorem c5_amended :
    process_statement_lines ["99/99 foo", "03/05/24 Coffee Shop Purchase 4.50"]
      "generic" (some 2024) 2025 = .error () ∧
    primaryRows [some "99/99 foo\n03/05/24 Coffee Shop Purchase 4.50"] true (some 2024) 2025 = [] ∧
    (parse_pdf_model [some "99/99 foo\n03/05/24 Coffee Shop Purchase 4.50"] true
      ([], none) (some "stmt 2024.pdf") 2025).2 = true := ⟨by decide, by decide, by decide⟩

/-- C6: `parse_pdf` consults the raw-stream fallback extractor exactly when
the primary page-based path produced zero records; when the primary path
yields at least one record the fallback is never invoked and the primary
records are the ones passed to deduplication. -/
theorem c6_fallback_monotonicity (pages : List (Option String)) (pagesOk : Bool)
    (fb : List String × Option String) (fileName : Option String) (today : Nat) :
    ((parse_pdf_model pages pagesOk fb fileName today).2 = true ↔
      primaryRows pages pagesOk (fileName.bind infer_year_from_filename) today = []) ∧
    (primaryRows pages pagesOk (fileName.bind infer_year_from_filename) today ≠ [] →
      (parse_pdf_model pages pagesOk fb fileName today).1 =
        .ok (dedupStage
          (primaryRows pages pagesOk (fileName.bind infer_year_from_filename) today)) ∧
      (parse_pdf_model pages pagesOk fb fileName today).2 = false) := by
  unfold parse_pdf_model
  by_cases h : primaryRows pages pagesOk (fileName.bind infer_year_from_filename) today = []
  · simp [h]
  · simp [h, List.isEmpty_iff]

/-- C6 witness: on a one-page document whose single line parses, the
fallback flag is false and the output is the deduplicated primary row. -/
theorem c6_fallback_monotonicity_witness :
    (parse_pdf_model [some "03/05/24 Coffee Shop Purchase 4.50"] true
      (["junk"], some "amex") none 2025).2 = false ∧
    (parse_pdf_model [some "03/05/24 Coffee Shop Purchase 4.50"] true
      (["junk"], some "amex") none 2025).1 =
      .ok [⟨"3/5/2024", some 450, "Coffee Shop Purchase"⟩] := by
  have h := c6_fallback_monotonicity [some "03/05/24 Coffee Shop Purchase 4.50"] true
    (["junk"], some "amex") none 2025
  have hne : primaryRows [some "03/05/24 Coffee Shop Purchase 4.50"] true
      ((none : Option String).bind infer_year_from_filename) 2025 ≠ [] := by decide
  obtain ⟨h1, h2⟩ := h
  obtain ⟨h3, h4⟩ := h2 hne
  refine ⟨h4, ?_⟩
  rw [h3]
  decide

/-- Dropping within the left part of an append. -/
theorem drop_append_le {α : Type} :
    ∀ (l₁ l₂ : List α) (n : Nat), n ≤ l₁.length → (l₁ ++ l₂).drop n = l₁.drop n ++ l₂ := by
  intro l₁
  induction l₁ with
  | nil =>
    intro l₂ n h
    have h0 : n = 0 := Nat.le_zero.mp (by simpa using h)
    subst h0
    simp
  | cons a t ih =>
    intro l₂ n h
    cases n with
    | zero => simp
    | succ n' =>
      simp only [List.cons_append, List.drop_succ_cons]
      exact ih l₂ n' (Nat.le_of_succ_le_succ h)

/-- A literal match survives appending characters on the right. -/
theorem litAt_append {n u v : List Char} (h : litAt n u = true) :
    litAt n (u ++ v) = true := by
  induction n generalizing u with
  | nil => rfl
  | cons c nt ih =>
    cases u with
    | nil => exact absurd h (by simp [litAt])
    | cons b ut =>
      simp only [litAt, Bool.and_eq_true] at h ⊢
      exact ⟨h.1, ih h.2⟩

/-- A literal match needs at least the literal's length. -/
theorem litAt_length {n u : List Char} (h : litAt n u = true) : n.length ≤ u.length := by
  induction n generalizing u with
  | nil => simp
  | cons c nt ih =>
    cases u with
    | nil => exact absurd h (by simp [litAt])
    | cons b ut =>
      simp only [litAt, Bool.and_eq_true] at h
      simpa [Nat.succ_le_succ_iff] using ih h.2

/-- `takeWhile` ignores an appended tail when the run stops inside the first part. -/
theorem takeWhile_append_stable {f : Char → Bool} {r v : List Char}
    (h : r.dropWhile f ≠ []) : (r ++ v).takeWhile f = r.takeWhile f := by
  induction r with
  | nil => exact absurd rfl h
  | cons c t ih =>
    by_cases hc : f c = true
    · simp only [List.dropWhile_cons, hc, if_true] at h
      simp [List.takeWhile_cons, hc, ih h]
    · simp [List.takeWhile_cons, hc]

/-- `dropWhile` drops exactly the leading run. -/
theorem dropWhile_eq_drop_countLeading {f : Char → Bool} {r : List Char} :
    r.dropWhile f = r.drop (countLeading f r) := by
  conv_lhs => rw [show r.dropWhile f = (r.takeWhile f ++ r.dropWhile f).drop (r.takeWhile f).length from (List.drop_left _ _).symm]
  rw [List.takeWhile_append_dropWhile]
  rfl

/-- The leading run is no longer than the list. -/
theorem countLeading_le {f : Char → Bool} {r : List Char} : countLeading f r ≤ r.length := by
  unfold countLeading
  induction r with
  | nil => simp
  | cons c t ih =>
    rw [List.takeWhile_cons]
    by_cases hc : f c = true
    · simp only [hc, if_true, List.length_cons]
      exact Nat.succ_le_succ ih
    · simp [hc]

/-- A match of the new-charges alternative survives right-extension. -/
theorem newChargeAt_append {u v : List Char} (h : newChargeAt u = true) :
    newChargeAt (u ++ v) = true := by
  simp only [newChargeAt, Bool.and_eq_true] at h ⊢
  obtain ⟨hnew, hrest⟩ := h
  refine ⟨litAt_append hnew, ?_⟩
  simp only [Bool.and_eq_true, decide_eq_true_eq] at hrest ⊢
  obtain ⟨hk, hch⟩ := hrest
  have hlen : 3 ≤ u.length := litAt_length hnew
  have hdrop : (u ++ v).drop 3 = u.drop 3 ++ v := drop_append_le u v 3 hlen
  rw [hdrop]
  set r := u.drop 3 with hr
  have hne : r.dropWhile isWsChar ≠ [] := by
    rw [dropWhile_eq_drop_countLeading]
    intro hnil
    rw [hnil] at hch
    exact absurd hch (by simp [litAt])
  have hcount : countLeading isWsChar (r ++ v) = countLeading isWsChar r := by
    unfold countLeading
    rw [takeWhile_append_stable hne]
  refine ⟨by rw [hcount]; exact hk, ?_⟩
  rw [hcount, drop_append_le r v _ countLeading_le]
  exact litAt_append hch

/-- A `MEMO_CLEAN_RE` match survives right-extension. -/
theorem memoCleanAt_append {u v : List Char} (h : memoCleanAt u = true) :
    memoCleanAt (u ++ v) = true := by
  simp only [memoCleanAt, Bool.or_eq_true] at h ⊢
  rcases h with ((((h | h) | h) | h) | h) | h
  · exact Or.inl (Or.inl (Or.inl (Or.inl (Or.inl (litAt_append h)))))
  · exact Or.inl (Or.inl (Or.inl (Or.inl (Or.inr (litAt_append h)))))
  · exact Or.inl (Or.inl (Or.inl (Or.inr (litAt_append h))))
  · exact Or.inl (Or.inl (Or.inr (litAt_append h)))
  · exact Or.inl (Or.inr (litAt_append h))
  · exact Or.inr (newChargeAt_append h)

/-- Leftmost-scan semantics: a hit at the reported position, none before. -/
theorem scanFirst_some {α : Type} {f : List Char → Option α} :
    ∀ {cs : List Char} {i : Nat} {a : α}, scanFirst f cs = some (i, a) →
      f (cs.drop i) = some a ∧ ∀ j < i, f (cs.drop j) = none := by
  intro cs
  induction cs with
  | nil =>
    intro i a h
    simp only [scanFirst, Option.map_eq_some'] at h
    obtain ⟨b, hb, hba⟩ := h
    obtain ⟨h1, h2⟩ := Prod.ext_iff.mp hba
    simp only at h1 h2
    subst h1; subst h2
    exact ⟨hb, fun j hj => absurd hj (Nat.not_lt_zero j)⟩
  | cons c t ih =>
    intro i a h
    simp only [scanFirst] at h
    rcases hf : f (c :: t) with _ | b <;> rw [hf] at h
    · simp only [Option.map_eq_some'] at h
      obtain ⟨⟨i2, a2⟩, hsc, hba⟩ := h
      obtain ⟨h1, h2⟩ := Prod.ext_iff.mp hba
      simp only at h1 h2
      subst h1; subst h2
      obtain ⟨hd, hmin⟩ := ih hsc
      refine ⟨by simpa using hd, ?_⟩
      intro j hj
      cases j with
      | zero => simpa using hf
      | succ j2 => simpa using hmin j2 (by omega)
    · obtain ⟨h1, h2⟩ := Prod.ext_iff.mp (Option.some.inj h)
      simp only at h1 h2
      subst h1; subst h2
      exact ⟨by simpa using hf, fun j hj => absurd hj (Nat.not_lt_zero j)⟩

/-- `strip` removes a prefix and a suffix. -/
theorem strip_decomp (l : List Char) :
    ∃ a b, l = a ++ stripChars l ++ b := by
  refine ⟨l.takeWhile isWsChar, ((stripLeft l).reverse.takeWhile isWsChar).reverse, ?_⟩
  have h1 : l = l.takeWhile isWsChar ++ stripLeft l :=
    (List.takeWhile_append_dropWhile isWsChar l).symm
  have h2 : stripLeft l = stripChars l ++ ((stripLeft l).reverse.takeWhile isWsChar).reverse := by
    have h3 : (stripLeft l).reverse =
        (stripLeft l).reverse.takeWhile isWsChar ++ (stripLeft l).reverse.dropWhile isWsChar :=
      (List.takeWhile_append_dropWhile isWsChar _).symm
    have h4 := congrArg List.reverse h3
    rw [List.reverse_reverse, List.reverse_append] at h4
    exact h4
  rw [List.append_assoc, ← h2, ← h1]

/-- `MEMO_CLEAN_RE.search` semantics: match at the position, none before. -/
theorem memoCleanFind_some {cs : List Char} {p : Nat} (h : memoCleanFind cs = some p) :
    memoCleanAt ((lowerChars cs).drop p) = true ∧
    ∀ j < p, memoCleanAt ((lowerChars cs).drop j) = false := by
  unfold memoCleanFind at h
  rcases hsc : scanFirst (fun t => if memoCleanAt t then some () else none) (lowerChars cs)
    with _ | ⟨i, u⟩ <;> rw [hsc] at h
  · exact Option.noConfusion h
  · have hip : i = p := by simpa using h
    subst hip
    obtain ⟨hd, hmin⟩ := scanFirst_some hsc
    constructor
    · by_cases hm : memoCleanAt ((lowerChars cs).drop i) = true
      · exact hm
      · rw [if_neg hm] at hd
        exact Option.noConfusion hd
    · intro j hj
      have := hmin j hj
      by_cases hm : memoCleanAt ((lowerChars cs).drop j) = true
      · rw [if_pos hm] at this
        exact Option.noConfusion this
      · simpa using hm

/-- The empty string matches no `MEMO_CLEAN_RE` alternative. -/
theorem memoCleanAt_nil : memoCleanAt ([] : List Char) = false := by decide

/-- The text before the leftmost `MEMO_CLEAN_RE` match, stripped, contains no match: any match there would also match in the original memo strictly before the leftmost one. -/
theorem memoCleanFind_cleaned {cs : List Char} {p : Nat} (h : memoCleanFind cs = some p) :
    memoCleanFind (stripChars (cs.take p)) = none := by
  obtain ⟨hat, hmin⟩ := memoCleanFind_some h
  rcases hres : memoCleanFind (stripChars (cs.take p)) with _ | p2
  · rfl
  · exfalso
    obtain ⟨hat2, _⟩ := memoCleanFind_some hres
    set T := cs.take p with hT
    set S := stripChars T with hS
    obtain ⟨a, b, hdec⟩ := strip_decomp T
    -- p2 is a position inside S
    have hp2 : p2 < S.length := by
      by_contra hge
      rw [List.drop_eq_nil_of_le (by simpa [lowerChars] using Nat.le_of_not_lt hge)] at hat2
      rw [memoCleanAt_nil] at hat2
      exact Bool.noConfusion hat2
    -- extend the match across the trailing junk
    have hstep1 : memoCleanAt ((lowerChars S).drop p2 ++ lowerChars b) = true :=
      memoCleanAt_append hat2
    -- rewrite as a position inside (lowerChars cs).take p
    have hlenS : (lowerChars S).length = S.length := by simp [lowerChars]
    have htake : (lowerChars cs).take p = lowerChars a ++ (lowerChars S ++ lowerChars b) := by
      have : lowerChars T = lowerChars a ++ (lowerChars S ++ lowerChars b) := by
        rw [hdec]; simp [lowerChars]
      rw [← this, hT]
      simp [lowerChars, List.map_take]
    have hdrop : ((lowerChars cs).take p).drop (a.length + p2) =
        (lowerChars S).drop p2 ++ lowerChars b := by
      rw [htake]
      have h1 : (lowerChars a ++ (lowerChars S ++ lowerChars b)).drop (a.length + p2) =
          (lowerChars S ++ lowerChars b).drop p2 := by
        have hcomm : a.length + p2 = (lowerChars a).length + p2 := by
          simp [lowerChars]
        rw [hcomm, ← List.drop_drop, List.drop_left]
      rw [h1, drop_append_le _ _ p2 (by rw [hlenS]; exact Nat.le_of_lt hp2)]
    have hstep2 : memoCleanAt (((lowerChars cs).take p).drop (a.length + p2)) = true := by
      rw [hdrop]; exact hstep1
    -- extend further to a position in the whole lowered memo
    have hparts : (lowerChars cs) = (lowerChars cs).take p ++ (lowerChars cs).drop p :=
      (List.take_append_drop p (lowerChars cs)).symm
    have hi_le : a.length + p2 < ((lowerChars cs).take p).length := by
      have : ((lowerChars cs).take p).length = T.length := by
        simp [lowerChars, hT, List.length_take]
      rw [this, hdec]
      simp only [List.length_append]
      have hS2 : S.length = (stripChars T).length := rfl
      omega
    have hstep3 : memoCleanAt ((lowerChars cs).drop (a.length + p2)) = true := by
      conv_lhs => rw [hparts]
      rw [drop_append_le _ _ _ (Nat.le_of_lt hi_le)]
      exact memoCleanAt_append hstep2
    have hlt : a.length + p2 < p := by
      have h1 : ((lowerChars cs).take p).length ≤ p := by
        simp [List.length_take]
      exact Nat.lt_of_lt_of_le hi_le h1
    rw [hmin (a.length + p2) hlt] at hstep3
    exact Bool.noConfusion hstep3

/-- The memo truncation of the post-processing stage is idempotent. -/
theorem memoCleanup_idem (cs : List Char) :
    memoCleanup (memoCleanup cs) = memoCleanup cs := by
  rcases h : memoCleanFind cs with _ | p
  · have e : memoCleanup cs = cs := by unfold memoCleanup; rw [h]
    rw [e, e]
  · have e : memoCleanup cs = stripChars (cs.take p) := by unfold memoCleanup; rw [h]
    have e2 : memoCleanup (stripChars (cs.take p)) = stripChars (cs.take p) := by
      unfold memoCleanup; rw [memoCleanFind_cleaned h]
    rw [e, e2]

/-- Record-level memo cleanup is idempotent. -/
theorem cleanupTx_idem (t : Tx) : cleanupTx (cleanupTx t) = cleanupTx t := by
  have e : memoCleanup (String.mk (memoCleanup t.memo.toList)).toList =
      memoCleanup t.memo.toList := by
    have e2 : (String.mk (memoCleanup t.memo.toList)).toList = memoCleanup t.memo.toList := rfl
    rw [e2, memoCleanup_idem]
  simp only [cleanupTx, e]

/-- Deduplication only keeps records of the input. -/
theorem mem_dedupByKey {x : Tx} :
    ∀ {l : List Tx} {seen : List (String × Option ℤ × String)},
      x ∈ dedupByKey l seen → x ∈ l := by
  intro l
  induction l with
  | nil => intro seen h; exact absurd h (by simp [dedupByKey])
  | cons r rs ih =>
    intro seen h
    unfold dedupByKey at h
    split at h
    · exact List.mem_cons_of_mem r (ih h)
    · rcases List.mem_cons.mp h with h1 | h1
      · exact h1 ▸ List.mem_cons_self r rs
      · exact List.mem_cons_of_mem r (ih h1)

/-- Keys surviving deduplication were not in the seen set. -/
theorem dedupByKey_keys_fresh {k : String × Option ℤ × String} :
    ∀ {l : List Tx} {seen : List (String × Option ℤ × String)},
      k ∈ (dedupByKey l seen).map txKey → k ∉ seen := by
  intro l
  induction l with
  | nil => intro seen h; exact absurd h (by simp [dedupByKey])
  | cons r rs ih =>
    intro seen h
    unfold dedupByKey at h
    split at h
    · exact ih h
    · rename_i hnot
      rw [List.map_cons] at h
      rcases List.mem_cons.mp h with h1 | h1
      · subst h1; exact hnot
      · intro hk
        exact (ih h1) (List.mem_cons_of_mem _ hk)

/-- Deduplication output has pairwise distinct keys. -/
theorem dedupByKey_keys_nodup :
    ∀ (l : List Tx) (seen : List (String × Option ℤ × String)),
      ((dedupByKey l seen).map txKey).Nodup := by
  intro l
  induction l with
  | nil => intro seen; simp [dedupByKey]
  | cons r rs ih =>
    intro seen
    unfold dedupByKey
    split
    · exact ih seen
    · simp only [List.map_cons, List.nodup_cons]
      refine ⟨?_, ih (txKey r :: seen)⟩
      intro hmem
      exact (dedupByKey_keys_fresh hmem) (List.mem_cons_self _ _)

/-- Deduplication is the identity on key-distinct, unseen input. -/
theorem dedupByKey_id :
    ∀ (l : List Tx) (seen : List (String × Option ℤ × String)),
      (l.map txKey).Nodup → (∀ k ∈ l.map txKey, k ∉ seen) → dedupByKey l seen = l := by
  intro l
  induction l with
  | nil => intro seen _ _; rfl
  | cons r rs ih =>
    intro seen hnd hfresh
    rw [List.map_cons] at hnd
    obtain ⟨hhead, htail⟩ := List.nodup_cons.mp hnd
    unfold dedupByKey
    rw [if_neg (hfresh (txKey r) (by simp))]
    congr 1
    refine ih (txKey r :: seen) htail ?_
    intro k hk
    simp only [List.mem_cons, not_or]
    exact ⟨fun hkr => hhead (hkr ▸ hk), hfresh k (List.mem_cons_of_mem _ hk)⟩

/-- Mapping a function that fixes every element is the identity. -/
theorem map_id_of_fixed {α : Type} {f : α → α} :
    ∀ {l : List α}, (∀ x ∈ l, f x = x) → l.map f = l := by
  intro l
  induction l with
  | nil => intro _; rfl
  | cons a t ih =>
    intro h
    simp only [List.map_cons]
    rw [h a (List.mem_cons_self a t), ih (fun x hx => h x (List.mem_cons_of_mem a hx))]

/-- C7: the memo-cleanup-and-dedup stage of `parse_pdf` is idempotent: applying it a second time to its own output returns the same sequence.  The stage cleans every memo (a no-op on already-cleaned memos, since the prefix before the leftmost `MEMO_CLEAN_RE` match contains no match) and drops records whose key (date, amount rounded to 2 decimal places, cleaned memo) equals that of an earlier record, preserving first-seen order; its output has pairwise distinct keys and survives a second pass unchanged. -/
theorem c7_dedup_idempotent (rows : List Tx) :
    dedupStage (dedupStage rows) = dedupStage rows := by
  unfold dedupStage
  have hfix : (dedupByKey (rows.map cleanupTx) []).map cleanupTx =
      dedupByKey (rows.map cleanupTx) [] := by
    refine map_id_of_fixed ?_
    intro x hx
    have hx2 : x ∈ rows.map cleanupTx := mem_dedupByKey hx
    obtain ⟨y, _, hy⟩ := List.mem_map.mp hx2
    rw [← hy, cleanupTx_idem]
  rw [hfix]
  exact dedupByKey_id _ [] (dedupByKey_keys_nodup _ _) (by simp)

/-- The initial machine state satisfies the invariant. -/
theorem inv_initState (yh : Option Nat) : MachineInv (initState yh) := by
  refine ⟨?_, ?_, ?_⟩
  · intro i hi; exact absurd hi (List.not_mem_nil i)
  · intro i hi; exact Option.noConfusion hi
  · intro _ i hi; exact Option.noConfusion hi

/-- The commit idiom preserves the invariant: it only appends an index whose record has a resolved amount. -/
theorem inv_commitPending {st : PState} (h : MachineInv st) :
    MachineInv (commitPending st) := by
  obtain ⟨h1, h2, h3⟩ := h
  unfold commitPending
  rcases hc : st.cur with _ | i
  · exact ⟨h1, h2, h3⟩
  · show MachineInv (if st.mode = PMode.pat ∨
        (st.mode = PMode.sm ∧ (st.store.getD i defaultTx).amount.isSome = true) then
        { st with rowIds := st.rowIds ++ [i], cur := some i } else st)
    by_cases hcond : st.mode = PMode.pat ∨
        (st.mode = PMode.sm ∧ (st.store.getD i defaultTx).amount.isSome = true)
    · rw [if_pos hcond]
      refine ⟨?_, ?_, ?_⟩
      · intro j hj
        rcases List.mem_append.mp hj with hj1 | hj2
        · exact h1 j hj1
        · have hji : j = i := by simpa using hj2
          subst hji
          refine ⟨h2 j hc, ?_⟩
          rcases hcond with hpat | ⟨_, hsome⟩
          · exact h3 hpat j hc
          · exact hsome
      · intro j hj
        have hij : i = j := Option.some.inj hj
        subst hij
        exact h2 i hc
      · intro hpat j hj
        have hij : i = j := Option.some.inj hj
        subst hij
        exact h3 hpat i hc
    · rw [if_neg hcond]
      exact ⟨h1, h2, h3⟩

/-- Allocating a fresh builder preserves the invariant when the new record has a resolved amount or the mode is not `pattern`. -/
theorem inv_pushTx {st : PState} {tx : Tx} {m : PMode} (h : MachineInv st)
    (hm : tx.amount.isSome = true ∨ m ≠ PMode.pat) :
    MachineInv (pushTx st tx m) := by
  obtain ⟨h1, h2, h3⟩ := h
  refine ⟨?_, ?_, ?_⟩
  · intro i hi
    obtain ⟨hlt, hsome⟩ := h1 i hi
    refine ⟨?_, ?_⟩
    · simp only [pushTx, List.length_append]
      omega
    · simp only [pushTx]
      rw [getD_append_lt _ _ _ _ hlt]
      exact hsome
  · intro i hi
    simp only [pushTx] at hi
    have : i = st.store.length := Eq.symm (by simpa using hi)
    subst this
    simp [pushTx]
  · intro hpat i hi
    simp only [pushTx] at hi hpat
    have : i = st.store.length := Eq.symm (by simpa using hi)
    subst this
    simp only [pushTx, getD_append_len]
    rcases hm with hs | hne
    · exact hs
    · exact absurd hpat hne

/-- In-place mutation preserves the invariant when it cannot un-resolve an amount. -/
theorem inv_setStoreAt {st : PState} {i : Nat} {f : Tx → Tx} (h : MachineInv st)
    (hf : ∀ t, t.amount.isSome = true → (f t).amount.isSome = true) :
    MachineInv (setStoreAt st i f) := by
  obtain ⟨h1, h2, h3⟩ := h
  refine ⟨?_, ?_, ?_⟩
  · intro j hj
    obtain ⟨hlt, hsome⟩ := h1 j hj
    refine ⟨by simpa [setStoreAt] using hlt, ?_⟩
    simp only [setStoreAt]
    rw [getD_set_lemma]
    split
    · rename_i hc
      obtain ⟨hij, _⟩ := hc
      subst hij
      exact hf _ hsome
    · exact hsome
  · intro j hj
    simp only [setStoreAt] at hj ⊢
    rw [List.length_set]
    exact h2 j hj
  · intro hpat j hj
    simp only [setStoreAt] at hpat hj ⊢
    rw [getD_set_lemma]
    split
    · rename_i hc
      obtain ⟨hij, _⟩ := hc
      subst hij
      exact hf _ (h3 hpat i hj)
    · exact h3 hpat j hj

/-- Appending a valid index and clearing the builder preserves the invariant. -/
theorem inv_append_clear {st : PState} {i : Nat} {cy : Option Nat} (h : MachineInv st)
    (hi : i < st.store.length)
    (ha : (st.store.getD i defaultTx).amount.isSome = true) :
    MachineInv { st with
      rowIds := st.rowIds ++ [i], cur := none, mode := PMode.off, currentYear := cy } := by
  obtain ⟨h1, _, _⟩ := h
  refine ⟨?_, ?_, ?_⟩
  · intro j hj
    rcases List.mem_append.mp hj with hj1 | hj2
    · exact h1 j hj1
    · have hji : j = i := by simpa using hj2
      subst hji
      exact ⟨hi, ha⟩
  · intro j hj; exact Option.noConfusion hj
  · intro _ j hj; exact Option.noConfusion hj

/-- The invariant ignores the rolling year. -/
theorem inv_currentYear {st : PState} {cy : Option Nat} (h : MachineInv st) :
    MachineInv { st with currentYear := cy } := h

/-- The single-line pattern branch preserves the invariant. -/
theorem patternBranch_inv {brand : String} {yh : Option Nat} {today : Nat}
    {st st' : PState} {df ds : Option (List Char)} {d a : List Char}
    (h : MachineInv st) (hb : patternBranch brand yh today st df ds d a = .ok st') :
    MachineInv st' := by
  unfold patternBranch at hb
  simp only [] at hb
  split at hb
  · exact Except.noConfusion hb
  · split at hb
    · exact Except.noConfusion hb
    · have hx := Except.ok.inj hb
      subst hx
      exact inv_pushTx (inv_currentYear (inv_commitPending h)) (Or.inl rfl)

/-- The date-start branch preserves the invariant. -/
theorem dateStartBranch_inv {brand : String} {yh : Option Nat} {today : Nat}
    {st st' : PState} {draw rest0 : List Char}
    (h : MachineInv st) (hb : dateStartBranch brand yh today st draw rest0 = .ok st') :
    MachineInv st' := by
  unfold dateStartBranch at hb
  simp only [] at hb
  split at hb
  · exact Except.noConfusion hb
  · rename_i m d y heq
    have hbase : MachineInv (pushTx { commitPending st with currentYear := some y }
        ⟨dateFmt m d y, none,
          ⟨stripChars (match headerFind rest0 with | some p => rest0.take p | none => rest0)⟩⟩
        PMode.sm) :=
      inv_pushTx (inv_currentYear (inv_commitPending h)) (Or.inr (by decide))
    split at hb
    · have hx := Except.ok.inj hb
      subst hx
      exact hbase
    · split at hb
      · -- moneySearch found a token inside the rest
        split at hb
        · exact Except.noConfusion hb
        · split at hb
          · have hx := Except.ok.inj hb
            subst hx
            refine inv_append_clear (inv_setStoreAt hbase (fun t _ => rfl)) ?_ ?_
            · simp [setStoreAt, pushTx, List.length_set, List.length_append]
            · simp [setStoreAt, pushTx, getD_set_lemma, List.length_append]
          · have hx := Except.ok.inj hb
            subst hx
            exact inv_setStoreAt hbase (fun t _ => rfl)
      · -- no money token: parse_amount_from_line path
        split at hb
        · exact Except.noConfusion hb
        · split at hb
          · have hx := Except.ok.inj hb
            subst hx
            exact hbase
          · split at hb
            · have hx := Except.ok.inj hb
              subst hx
              refine inv_append_clear (inv_setStoreAt hbase (fun t _ => rfl)) ?_ ?_
              · simp [setStoreAt, pushTx, List.length_set, List.length_append]
              · simp [setStoreAt, pushTx, getD_set_lemma, List.length_append]
            · have hx := Except.ok.inj hb
              subst hx
              exact inv_setStoreAt hbase (fun t _ => rfl)

/-- The abbreviated-month branch preserves the invariant (including its no-reset path: the aliased index already satisfies it). -/
theorem abbrevBranch_inv {brand : String} {yh : Option Nat} {today : Nat}
    {st st' : PState} {mon : String} {dayCs rest0 : List Char}
    (h : MachineInv st) (hb : abbrevBranch brand yh today st mon dayCs rest0 = .ok st') :
    MachineInv st' := by
  unfold abbrevBranch at hb
  simp only [] at hb
  split at hb
  · exact Except.noConfusion hb
  · rename_i m d y heq
    split at hb
    · split at hb
      · exact Except.noConfusion hb
      · have hx := Except.ok.inj hb
        subst hx
        refine @inv_append_clear
          (pushTx { commitPending st with currentYear := some y } _ PMode.off) _ _
          (inv_pushTx (inv_currentYear (inv_commitPending h)) (Or.inl rfl)) ?_ ?_
        · simp [pushTx]
        · simp [pushTx, getD_append_len]
    · have hx := Except.ok.inj hb
      subst hx
      exact inv_currentYear (inv_commitPending h)

/-- The scan-mode continuation preserves the invariant. -/
theorem smModeCont_inv {brand : String} {st st' : PState} {i : Nat} {line : List Char}
    (h : MachineInv st) (hc : st.cur = some i)
    (hb : smModeCont brand st i line = .ok st') : MachineInv st' := by
  unfold smModeCont at hb
  simp only [] at hb
  split at hb
  · split at hb
    · rename_i hcond
      have hx := Except.ok.inj hb
      subst hx
      exact inv_append_clear h (h.2.1 i hc) hcond.2.1
    · exact (Except.ok.inj hb) ▸ h
  · split at hb
    · split at hb
      · exact (Except.ok.inj hb) ▸ h
      · have hx := Except.ok.inj hb
        subst hx
        exact inv_setStoreAt h (fun t ht => ht)
    · split at hb
      · exact Except.noConfusion hb
      · split at hb
        · have hx := Except.ok.inj hb
          subst hx
          have hi := h.2.1 i hc
          refine inv_append_clear (inv_setStoreAt h (fun t _ => rfl)) ?_ ?_
          · simpa [setStoreAt, List.length_set] using hi
          · simp [setStoreAt, getD_set_lemma, hi]
        · have hx := Except.ok.inj hb
          subst hx
          exact inv_setStoreAt h (fun t ht => ht)

/-- One loop iteration preserves the invariant. -/
theorem stepLine_inv {brand : String} {yh : Option Nat} {today : Nat}
    {st st' : PState} {line : String}
    (h : MachineInv st) (hb : stepLine brand yh today st line = .ok st') :
    MachineInv st' := by
  unfold stepLine at hb
  simp only [] at hb
  split at hb
  · exact (Except.ok.inj hb) ▸ h
  · split at hb
    · exact patternBranch_inv h hb
    · split at hb
      · exact dateStartBranch_inv h hb
      · split at hb
        · exact abbrevBranch_inv h hb
        · split at hb
          · rename_i i heq
            split at hb
            · have hx := Except.ok.inj hb
              subst hx
              exact inv_setStoreAt h (fun t ht => ht)
            · split at hb
              · exact smModeCont_inv h heq hb
              · exact (Except.ok.inj hb) ▸ h
          · exact (Except.ok.inj hb) ▸ h

/-- The whole line loop preserves the invariant. -/
theorem foldl_inv {brand : String} {yh : Option Nat} {today : Nat} :
    ∀ (lines : List String) (st st' : PState), MachineInv st →
      List.foldlM (stepLine brand yh today) st lines = .ok st' → MachineInv st' := by
  intro lines
  induction lines with
  | nil =>
    intro st st' h hf
    simp only [List.foldlM_nil] at hf
    exact (Except.ok.inj hf) ▸ h
  | cons l ls ih =>
    intro st st' h hf
    rw [List.foldlM_cons] at hf
    rcases hstep : stepLine brand yh today st l with e | st1 <;> rw [hstep] at hf
    · simp only [bind, Except.bind] at hf
      exact Except.noConfusion hf
    · simp only [bind, Except.bind] at hf
      exact ih st1 st' (stepLine_inv h hstep) hf

/-- C3: for every input line sequence, brand and year hint, no record lacking a resolved amount ever appears in the output of `process_statement_lines`: every commit site either created the record with a concrete amount or checked `Amount is not None` first, and a builder still lacking an amount at end of input is silently discarded. -/
theorem c3_no_incomplete_commits :
    ∀ (lines : List String) (brand : String) (yh : Option Nat) (today : Nat) (rows : List Tx),
      process_statement_lines lines brand yh today = .ok rows →
      ∀ r ∈ rows, r.amount.isSome = true := by
  intro lines brand yh today rows hp r hr
  unfold process_statement_lines at hp
  rcases hps : processState lines brand yh today with e | stf <;> rw [hps] at hp
  · simp [Except.map] at hp
  · have hrows : rows = stf.rowIds.map (fun i => stf.store.getD i defaultTx) :=
      (Except.ok.inj hp).symm
    have hinv : MachineInv stf := by
      unfold processState at hps
      rcases hf : List.foldlM (stepLine brand yh today) (initState yh) lines
        with e | st0 <;> rw [hf] at hps
      · exact Except.noConfusion hps
      · have hcp : commitPending st0 = stf := Except.ok.inj hps
        exact hcp ▸ inv_commitPending (foldl_inv lines (initState yh) st0 (inv_initState yh) hf)
    rw [hrows] at hr
    obtain ⟨i, hi, hgd⟩ := List.mem_map.mp hr
    rw [← hgd]
    exact (hinv.1 i hi).2

/-- C3 witness: the invariant applied to the record produced by a concrete one-line statement. -/
theorem c3_no_incomplete_commits_witness :
    (⟨"3/6/2024", some 500, "Foo"⟩ : Tx).amount.isSome = true :=
  c3_no_incomplete_commits ["03/06/24 Foo 5.00"] "generic" (some 2024) 2025
    [⟨"3/6/2024", some 500, "Foo"⟩] (by decide) ⟨"3/6/2024", some 500, "Foo"⟩ (by decide)
